import Mathlib

/-!
Shallow embedding of the tqsm sentence segmenter (src/libtqsm/src/lib.rs and
src/libtqsm/src/languages.rs).

Modelling conventions:
* Text is `List Char`; every offset is a code-point index.  In the Rust source
  all offsets are byte offsets, but every offset the algorithm manipulates is a
  character boundary, and the byte-offset/char-index correspondence is an order
  isomorphism, so all ordering, membership and slicing facts transfer verbatim.
* Rust panics (out-of-order slice indices) are modelled by `Option`: `none`
  means the paragraph loop aborted with a panic, `some out` means it returned.
* The external `unicode-segmentation` crate and the compiled regular
  expressions are translated into executable scanners below; each scanner's
  doc comment names the regex (from the source) it implements.
* `constants.rs` of this repository is not under `src/`; the values it
  provides (`GLOBAL_SENTENCE_TERMINATORS`, `QUOTE_PAIRS_ARRAY`,
  `LANGUAGE_FALLBACKS`, `DEFAULT_FALLBACK_LANGUAGE`, `LANGDATA_STR`) are
  modelled from the spec and marked as such.
-/

/-- Convert a string literal to the `List Char` text representation. -/
def s2l (s : String) : List Char := s.data

/-- The backslash character. -/
def bslash : Char := Char.ofNat 92

/-- The apostrophe character (used by the Italian elision split). -/
def aposChar : Char := Char.ofNat 39

/-- The newline character. -/
def nlChar : Char := Char.ofNat 10

/-- ASCII lowercase test, as Rust's `char::is_ascii_lowercase`. -/
def isAsciiLower (c : Char) : Bool := 97 ≤ c.toNat && c.toNat ≤ 122

/-- ASCII uppercase test. -/
def isAsciiUpper (c : Char) : Bool := 65 ≤ c.toNat && c.toNat ≤ 90

/-- ASCII digit test, as Rust's `char::is_ascii_digit`. -/
def isAsciiDigit (c : Char) : Bool := 48 ≤ c.toNat && c.toNat ≤ 57

/-- Count the longest prefix of `l` whose characters satisfy `p`. -/
def countWhile (p : Char → Bool) : List Char → Nat
  | [] => 0
  | c :: rest => if p c then countWhile p rest + 1 else 0

/-- Index of the first character satisfying `p`, if any. -/
def findIdxP (p : Char → Bool) : List Char → Option Nat
  | [] => none
  | c :: rest =>
    if p c then some 0 else (findIdxP p rest).map (· + 1)

/-- Trim the plain space character from both ends, as Rust's
`str::trim_matches(' ')`. -/
def trimSpace (l : List Char) : List Char :=
  ((l.dropWhile (· == ' ')).reverse.dropWhile (· == ' ')).reverse

/-- The contiguous slice `[a, b)` of a text, as Rust's `&text[a..b]`
(validity of the indices is checked separately where the source can panic). -/
def extr (text : List Char) (a b : Nat) : List Char :=
  (text.drop a).take (b - a)

/-- Whitespace test modelling the regex class `\s` (the inputs of this
development only use ASCII whitespace). -/
def isWs (c : Char) : Bool :=
  c == ' ' || c == '\t' || c == nlChar || c == Char.ofNat 13

/-- Character class of `WORD_SPLIT_REGEX`, the regex `[\s\.]+`. -/
def isWsDot (c : Char) : Bool := isWs c || c == '.'

/-- Split on maximal runs of characters satisfying `p`, with regex
`split` semantics (empty pieces at the edges are kept).  `sep` records
whether the scanner is inside a separator run. -/
def splitAux (p : Char → Bool) : List Char → Bool → List Char → List (List Char)
  | curRev, _, [] => [curRev.reverse]
  | curRev, sep, c :: rest =>
    if p c then
      if sep then splitAux p curRev true rest
      else curRev.reverse :: splitAux p [] true rest
    else splitAux p (c :: curRev) false rest

/-- Regex-style split of a text on maximal runs of `p`-characters. -/
def splitOn (p : Char → Bool) (t : List Char) : List (List Char) :=
  splitAux p [] false t

/-!  Grapheme segmentation.

Modelled from the `unicode-segmentation` crate (`grapheme_indices(false)`),
which is outside this repository: a cluster is a base character followed by
its extending characters.  The extend set is restricted to the combining
characters appearing in this development (U+0300–U+036F), which agrees with
UAX #29 on every text used here.  -/

/-- Extending character test (subset of the UAX #29 `Extend` class). -/
def isExtendChar (c : Char) : Bool := 0x300 ≤ c.toNat && c.toNat ≤ 0x36F

/-- Accumulate the current (reversed, nonempty) cluster while scanning. -/
def gcAux (curRev : List Char) : List Char → List (List Char)
  | [] => [curRev.reverse]
  | d :: rest =>
    if isExtendChar d then gcAux (d :: curRev) rest
    else curRev.reverse :: gcAux [d] rest

/-- The grapheme clusters of a text, in order. -/
def graphemeClusters : List Char → List (List Char)
  | [] => []
  | c :: rest => gcAux [c] rest

/-- Starting offsets of a cluster list, beginning at `pos`. -/
def offsetsFrom (pos : Nat) : List (List Char) → List Nat
  | [] => []
  | cl :: rest => pos :: offsetsFrom (pos + cl.length) rest

/-- The Grapheme Offset Index of a paragraph: the ascending offsets of the
cluster starts (the sorted keys of `grapheme_indices` in the source). -/
def graphemeOffsets (t : List Char) : List Nat :=
  offsetsFrom 0 (graphemeClusters t)

/-- Offset/cluster pairs, modelling the `grapheme_indices` hash map. -/
def pairsFrom (pos : Nat) : List (List Char) → List (Nat × List Char)
  | [] => []
  | cl :: rest => (pos, cl) :: pairsFrom (pos + cl.length) rest

/-- The offset-to-cluster map of a paragraph. -/
def graphemePairs (t : List Char) : List (Nat × List Char) :=
  pairsFrom 0 (graphemeClusters t)

/-- Cluster lookup, modelling `grapheme_indices[&k]` (the Rust indexing
panics on a missing key; callers model that case explicitly). -/
def clusterAt (t : List Char) (k : Nat) : Option (List Char) :=
  ((graphemePairs t).find? (fun p => p.1 == k)).map (·.2)

/-- `GraphemeCursor::next_grapheme`: the smallest recorded offset strictly
greater than `pos` (the source scans the ascending offset list with `find`). -/
def next_grapheme (offs : List Nat) (pos : Nat) : Option Nat :=
  offs.find? (fun o => pos < o)

/-- `GraphemeCursor::prev_grapheme`: the largest recorded offset strictly
less than `pos`. -/
def prev_grapheme (offs : List Nat) (pos : Nat) : Option Nat :=
  offs.reverse.find? (fun o => o < pos)

/-!  Byte offsets.

Character positions in this development stand for the source's byte offsets;
the two index spaces are related by the strictly monotone `byteIdx` below.
The numbered-reference branch of `find_boundary` is the one place in the
source where two byte offsets are added, so it must be modelled with the
byte arithmetic made explicit. -/

/-- UTF-8 byte length of one character (`char::len_utf8` in Rust). -/
def utf8Size (c : Char) : Nat :=
  if c.toNat < 0x80 then 1
  else if c.toNat < 0x800 then 2
  else if c.toNat < 0x10000 then 3
  else 4

/-- UTF-8 byte length of a text (`str::len` in Rust). -/
def utf8Len : List Char → Nat
  | [] => 0
  | c :: rest => utf8Size c + utf8Len rest

/-- The byte offset of character position `i` of `text`. -/
def byteIdx (text : List Char) (i : Nat) : Nat :=
  utf8Len (text.take i)

/-- The character position containing byte offset `b`: the position itself
when `b` is a character boundary, the position of the character whose
encoding contains `b` otherwise, and the text length when `b` is at or past
the end of the text. -/
def charAtByte : List Char → Nat → Nat
  | [], _ => 0
  | c :: rest, b => if b < utf8Size c then 0 else charAtByte rest (b - utf8Size c) + 1

/-- The forced numbered-reference boundary.  The source computes
`ref_num_end = mtch.end() + number_ref_match.end()` in bytes: the byte
offset of the terminator-match end plus the byte length of the reference run
(the reference regex is anchored at the start of the tail, so its match end
is its byte length), and then snaps with
`cursor.next_grapheme(ref_num_end).unwrap_or(ref_num_end)` over the byte
offsets of the recorded cluster starts.  Searching the character-offset list
for the first entry whose byte image exceeds `rnd` is that same search;
in the `unwrap_or` fallback the raw byte offset is mapped to the character
position containing it, which is the position itself whenever the offset is
a character boundary. -/
def forcedBoundary (text : List Char) (offs : List Nat) (me nco rl : Nat) : Nat :=
  let rnd := byteIdx text me + utf8Len ((text.drop nco).take rl)
  match offs.find? (fun o => rnd < byteIdx text o) with
  | some o => o
  | none => charAtByte text rnd

/-!  Terminator matching.

`GLOBAL_SENTENCE_BOUNDARY_REGEX` is `[{terminators}]+`; its non-overlapping
`find_iter` matches are exactly the maximal runs of terminator characters.
The scanner below walks the text once; `st = some s` records an open run
that started at offset `s`, `i` is the current offset. -/

/-- Maximal runs of `isT`-characters: the `find_iter` matches of `[...]+`. -/
def findRunsAux (isT : Char → Bool) : Nat → Option Nat → List Char → List (Nat × Nat)
  | _, none, [] => []
  | i, some s, [] => [(s, i)]
  | i, none, c :: rest =>
    if isT c then findRunsAux isT (i + 1) (some i) rest
    else findRunsAux isT (i + 1) none rest
  | i, some s, c :: rest =>
    if isT c then findRunsAux isT (i + 1) (some s) rest
    else (s, i) :: findRunsAux isT (i + 1) none rest

/-- All terminator-run matches `(start, end)` of a paragraph. -/
def findRuns (isT : Char → Bool) (t : List Char) : List (Nat × Nat) :=
  findRunsAux isT 0 none t

/-!  Numbered references.

`NUMBERED_REFERENCE_REGEX` is `^(\[\d+])+`: one or more bracketed integers at
the very start of the tail.  The scanner is a three-state machine:
`expectOpen` awaits `[` at a group boundary, `firstDigit` requires at least
one digit, `inDigits` extends digits or closes the group; `last` is the
longest complete sequence of groups seen so far.  (`\d` is modelled as the
ASCII digits; the reference texts only use those.) -/
inductive NrState where
  | expectOpen : NrState
  | firstDigit : NrState
  | inDigits : NrState

def nrAux : NrState → Nat → Option Nat → List Char → Option Nat
  | _, _, last, [] => last
  | .expectOpen, pos, last, c :: rest =>
    if c == '[' then nrAux .firstDigit (pos + 1) last rest else last
  | .firstDigit, pos, last, c :: rest =>
    if isAsciiDigit c then nrAux .inDigits (pos + 1) last rest else last
  | .inDigits, pos, last, c :: rest =>
    if isAsciiDigit c then nrAux .inDigits (pos + 1) last rest
    else if c == ']' then nrAux .expectOpen (pos + 1) (some (pos + 1)) rest
    else last

/-- Length of the numbered-reference run at the start of `tail`, if any. -/
def numRefMatch (tail : List Char) : Option Nat :=
  nrAux .expectOpen 0 none tail

/-!  Skip ranges: quotes, e-mail addresses, parentheticals. -/

/-- Modelled from the spec: `QUOTE_PAIRS_ARRAY` lives in the missing
`constants.rs`; the spec says it is a list of configured opening/closing
quote-glyph pairs.  A representative list is used; the resolver below is
faithful for any pair list. -/
def QUOTE_PAIRS_ARRAY : List (Char × Char) :=
  [('"', '"'), ('«', '»'), ('„', '“'), ('「', '」')]

/-- Lazy search for the closing glyph `r` (the `(\n|.)*?r` part of the quote
regex: any character, newlines included, up to the first closer). -/
def tryPairClose (r : Char) (rest : List Char) : Option Nat :=
  findIdxP (· == r) rest

/-- Try each quote pair at a position whose character is `c` (leftmost-first
alternation order of `QUOTE_PAIRS_REGEX`); returns the total match length. -/
def tryQuoteAt : List (Char × Char) → Char → List Char → Option Nat
  | [], _, _ => none
  | (l, r) :: ps, c, rest =>
    if c == l then
      match tryPairClose r rest with
      | some q => some (q + 2)
      | none => tryQuoteAt ps c rest
    else tryQuoteAt ps c rest

/-- Generic `find_iter` scanning: at each position try the matcher on the
current character and the remaining text; on a match of total length `L`
emit `(i, i + L)` and resume after the match end (non-overlapping matches),
otherwise advance one position.  `fuel` only bounds the recursion; the
`...Matches` wrappers supply enough for the whole text. -/
def scanAux (try_at : Char → List Char → Option Nat) (fuel i : Nat) :
    List Char → List (Nat × Nat)
  | [] => []
  | c :: rest =>
    match fuel with
    | 0 => []
    | n + 1 =>
      match try_at c rest with
      | some L => (i, i + L) :: scanAux try_at n (i + L) (rest.drop (L - 1))
      | none => scanAux try_at n (i + 1) rest

/-- All quoted-span ranges of a text (`find_iter` of `QUOTE_PAIRS_REGEX`). -/
def quoteMatches (t : List Char) : List (Nat × Nat) :=
  scanAux (tryQuoteAt QUOTE_PAIRS_ARRAY) (t.length + 1) 0 t

/-- Character class of the e-mail local part: `[A-Za-z0-9._%+-]`. -/
def isLocalChar (c : Char) : Bool :=
  isAsciiLower c || isAsciiUpper c || isAsciiDigit c ||
    c == '.' || c == '_' || c == '%' || c == '+' || c == '-'

/-- Character class of the e-mail domain: `[A-Za-z0-9.-]`. -/
def isDomainChar (c : Char) : Bool :=
  isAsciiLower c || isAsciiUpper c || isAsciiDigit c || c == '.' || c == '-'

/-- Character class of the top-level segment: `[A-Z|a-z]` (the literal `|`
inside the class is part of it, as in the source regex). -/
def isTldChar (c : Char) : Bool :=
  isAsciiLower c || isAsciiUpper c || c == '|'

/-- Greedy backtracking of `[A-Za-z0-9.-]+\.[A-Z|a-z]{2,7}` after the `@`:
find the rightmost dot position `d` (searched downward from `dr - 1`) with at
least one domain character before it and at least two top-level characters
after it; returns the match length within `rest2`. -/
def findDomainDot (rest2 : List Char) : Nat → Option Nat
  | 0 => none
  | d + 1 =>
    if rest2.getD (d + 1) ' ' == '.' then
      let t := countWhile isTldChar (rest2.drop (d + 2))
      if 2 ≤ t then some (d + 2 + min 7 t)
      else findDomainDot rest2 d
    else findDomainDot rest2 d

/-- Try `EMAIL_REGEX` at a position whose character is `c`: a nonempty local
run, the `@`, then the domain with its backtracked dot split; returns the
total match length. -/
def tryEmailAt (c : Char) (rest : List Char) : Option Nat :=
  if isLocalChar c then
    let lr := countWhile isLocalChar rest + 1
    match rest.drop (lr - 1) with
    | [] => none
    | a :: rest2 =>
      if a == '@' then
        let dr := countWhile isDomainChar rest2
        match findDomainDot rest2 (dr - 1) with
        | some L2 => some (lr + 1 + L2)
        | none => none
      else none
  else none

/-- All e-mail ranges of a text (`find_iter` of `EMAIL_REGEX`). -/
def emailMatches (t : List Char) : List (Nat × Nat) :=
  scanAux tryEmailAt (t.length + 1) 0 t

/-- Opening bracket class of `PARENS_REGEX`: `[\(（<{\[]`. -/
def isOpener (c : Char) : Bool :=
  c == '(' || c == '（' || c == '<' || c == '{' || c == '['

/-- Closing bracket class of `PARENS_REGEX`: `[\)\]}）]`. -/
def isCloser (c : Char) : Bool :=
  c == ')' || c == ']' || c == '}' || c == '）'

/-- The lazy body `(?:\\\1|.)*?[closer]` of `PARENS_REGEX` after the opener
`op`: at each step first try to close, then consume an escaped opener pair,
then any single non-newline character (`.` does not match a newline in
`fancy_regex`); returns the number of characters consumed including the
closer. -/
def parenWalk (op : Char) : List Char → Option Nat
  | [] => none
  | [d] => if isCloser d then some 1 else none
  | d :: e :: rest2 =>
    if isCloser d then some 1
    else if d == nlChar then none
    else if d == bslash && e == op then (parenWalk op rest2).map (· + 2)
    else (parenWalk op (e :: rest2)).map (· + 1)

/-- Try `PARENS_REGEX` at a position whose character is `c`. -/
def tryParenAt (c : Char) (rest : List Char) : Option Nat :=
  if isOpener c then (parenWalk c rest).map (· + 1) else none

/-- All parenthetical ranges of a text (`find_iter` of `PARENS_REGEX`). -/
def parenMatches (t : List Char) : List (Nat × Nat) :=
  scanAux tryParenAt (t.length + 1) 0 t

/-!  Paragraph splitting: `CONSECUTIVE_NEWLINES_REGEX` is `(\n{2,})`. -/

/-- Position and length of the first run of two or more newlines. -/
def findSep : List Char → Option (Nat × Nat)
  | [] => none
  | c :: rest =>
    match c == nlChar, rest with
    | true, d :: rest2 =>
      if d == nlChar then some (0, 2 + countWhile (· == nlChar) rest2)
      else (findSep rest).map (fun p => (p.1 + 1, p.2))
    | _, _ => (findSep rest).map (fun p => (p.1 + 1, p.2))

/-- Regex split on `\n{2,}` (the fuel exceeds the text length, which makes
the scanner total; each step consumes at least two characters). -/
def splitParasF : Nat → List Char → List (List Char)
  | 0, t => [t]
  | n + 1, t =>
    match findSep t with
    | none => [t]
    | some (k, r) => t.take k :: splitParasF n (t.drop (k + r))

/-- The paragraphs of a text. -/
def splitParas (t : List Char) : List (List Char) :=
  splitParasF (t.length + 1) t

/-!  The Language capability model (trait `Language` of the source, as a
structure whose fields are the overridable hooks; the default method bodies
become the field values of `mkDefaultLanguage`). -/

/-- Modelled from the spec: `GLOBAL_SENTENCE_TERMINATORS` lives in the
missing `constants.rs`.  The spec's examples need at least the period, the
exclamation and question marks, the Arabic question mark and the ideographic
full stop. -/
def GLOBAL_SENTENCE_TERMINATORS : List Char := ['.', '!', '?', '؟', '。']

/-- Sentence returned by splitting on `WORD_SPLIT_REGEX` and taking the last
piece (`get_lastword` default body). -/
def default_lastword (t : List Char) : Option (List Char) :=
  (splitOn isWsDot t).getLast?

/-- Default `continue_in_next_word` body: the first character is an ASCII
lowercase letter or an ASCII digit. -/
def default_cnw : List Char → Bool
  | [] => false
  | c :: _ => isAsciiLower c || isAsciiDigit c

namespace Tqsm

/-- A per-language capability variant. -/
structure Language where
  language_code : List Char
  terminators : List Char
  continue_in_next_word : List Char → Bool
  is_punctuation_between_quotes : Bool
  get_lastword : List Char → Option (List Char)
  abbreviation_char : List Char
  abbreviations : List (List Char)
  exclamation_words : List (List Char)

/-- Lowercase the first character, keep the rest (the source lowercases the
first grapheme with `to_lowercase`; the abbreviation data is ASCII, where the
two coincide). -/
def lowerFirst : List Char → List Char
  | [] => []
  | c :: cs => c.toLower :: cs

/-- Full lowercasing, as `str::to_lowercase` on the data used here. -/
def lowerAll (w : List Char) : List Char := w.map Char.toLower

/-- Full uppercasing, as `str::to_uppercase` on the data used here. -/
def upperAll (w : List Char) : List Char := w.map Char.toUpper

/-- `Language::is_abbreviation`: the separator grapheme must equal the
language's abbreviation marker and the last word of `head` (exact,
first-letter-lowercased, lowercased or uppercased) must be a known
abbreviation. -/
def Language.is_abbreviation (L : Language) (head _tail separator : List Char) : Bool :=
  if L.abbreviation_char != separator then false
  else
    match L.get_lastword head with
    | none => false
    | some lw =>
      if lw == [] then false
      else
        L.abbreviations.contains lw ||
        L.abbreviations.contains (lowerFirst lw) ||
        L.abbreviations.contains (lowerAll lw) ||
        L.abbreviations.contains (upperAll lw)

/-- `Language::is_exclamation_word`: the last word of `head` with an
exclamation mark appended is a known exclamation word. -/
def Language.is_exclamation_word (L : Language) (head _tail : List Char) : Bool :=
  match L.get_lastword head with
  | none => false
  | some lw => L.exclamation_words.contains (lw ++ ['!'])

/-- Result of `find_boundary` for one terminator match: `abort` models the
panic of the `grapheme_indices[&match_start]` lookup on a missing key,
`skip` a discarded candidate (`None` in the source), `found b forced` a
candidate boundary with its numbered-reference flag. -/
inductive BStep where
  | abort : BStep
  | skip : BStep
  | found : Nat → Bool → BStep
deriving DecidableEq

/-- `Language::find_boundary` on the match `m = (start, end)`. -/
def Language.find_boundary (L : Language) (text : List Char) (offs : List Nat)
    (m : Nat × Nat) : BStep :=
  match next_grapheme offs m.1 with
  | none => .skip
  | some nco =>
    let tail := text.drop nco
    let head := text.take m.1
    match numRefMatch tail with
    | some rl =>
      .found (forcedBoundary text offs m.2 nco rl) true
    | none =>
      if L.continue_in_next_word tail then .skip
      else
        match clusterAt text m.1 with
        | none => .abort
        | some sep =>
          if L.is_abbreviation head tail sep then .skip
          else if L.is_exclamation_word head tail then .skip
          else .found m.2 false

/-- The `'skip_ranges` loop of `Language::segment` for one accepted
(non-forced) boundary: `some b2` means the boundary survives with value
`b2`, `none` that the candidate is discarded. -/
def apply_skip_ranges (L : Language) (offs : List Nat) (b : Nat) :
    List (Nat × Nat) → Option Nat
  | [] => some b
  | (qs, qe) :: rest =>
    let ng := (next_grapheme offs b).getD b
    if qs < b && b < qe then
      if ng == qe && L.is_punctuation_between_quotes then some qe else none
    else apply_skip_ranges L offs b rest

/-- `Language::get_skippable_ranges`: quote spans, then e-mail spans, then
parenthetical spans, in the push order of the source. -/
def Language.get_skippable_ranges (_L : Language) (t : List Char) : List (Nat × Nat) :=
  quoteMatches t ++ emailMatches t ++ parenMatches t

/-- The boundary loop of `Language::segment`: boundaries contributed by the
given matches, in scan order (`none` models a panic). -/
def segment_loop (L : Language) (text : List Char) (offs : List Nat)
    (ranges : List (Nat × Nat)) : List (Nat × Nat) → Option (List Nat)
  | [] => some []
  | m :: ms =>
    match L.find_boundary text offs m with
    | .abort => none
    | .skip => segment_loop L text offs ranges ms
    | .found b true => (segment_loop L text offs ranges ms).map (b :: ·)
    | .found b false =>
      match apply_skip_ranges L offs b ranges with
      | none => segment_loop L text offs ranges ms
      | some b2 => (segment_loop L text offs ranges ms).map (b2 :: ·)

/-- The resolved-boundary list of one paragraph (initialised with 0, as
`vec![0]` in the source). -/
def boundariesOf (L : Language) (para : List Char) : Option (List Nat) :=
  let offs := graphemeOffsets para
  let ranges := L.get_skippable_ranges para
  let ms := findRuns (fun c => L.terminators.contains c) para
  (segment_loop L para offs ranges ms).map (0 :: ·)

/-- The boundary pairs used by the slicing loop: each boundary zipped with
its successor, the last one with the paragraph length. -/
def slicePairs (bs : List Nat) (plen : Nat) : List (Nat × Nat) :=
  bs.zip (bs.tail ++ [plen])

/-- The slicing loop of `Language::segment` over the boundary pairs.  A pair
whose slice indices are invalid (`i > j` or `j > len`) makes the Rust
`&paragraph[i..j]` panic, modelled as `none`; an empty slice is dropped
before trimming, a nonempty one is pushed trimmed of spaces. -/
def slicesAux (para : List Char) : List (Nat × Nat) → Option (List (List Char))
  | [] => some []
  | (i, j) :: rest =>
    if i ≤ j && j ≤ para.length then
      match slicesAux para rest with
      | none => none
      | some out =>
        let sl := extr para i j
        some (if sl == [] then out else trimSpace sl :: out)
    else none

/-- The sentences sliced from one paragraph given its boundary list. -/
def slicesOut (para : List Char) (bs : List Nat) : Option (List (List Char)) :=
  slicesAux para (slicePairs bs para.length)

/-- Sentences of one paragraph: boundary resolution followed by slicing. -/
def paraSentences (L : Language) (para : List Char) : Option (List (List Char)) :=
  match boundariesOf L para with
  | none => none
  | some bs => slicesOut para bs

/-- The literal two-newline paragraph marker pushed between paragraphs. -/
def nlMarker : List Char := [nlChar, nlChar]

/-- The paragraph loop of `Language::segment`: before each paragraph, push
the marker if sentences have already been emitted, then append the
paragraph's sentences. -/
def seg_paras (L : Language) : List (List Char) → List (List Char) →
    Option (List (List Char))
  | [], acc => some acc
  | p :: ps, acc =>
    let acc2 := if acc.isEmpty then acc else acc ++ [nlMarker]
    match paraSentences L p with
    | none => none
    | some ss => seg_paras L ps (acc2 ++ ss)

/-- `Language::segment`: split into paragraphs and process them in order
(`none` models a panic escaping the call). -/
def Language.segment (L : Language) (text : List Char) : Option (List (List Char)) :=
  seg_paras L (splitParas text) []

/-!  The supported languages (src/libtqsm/src/languages.rs).  Hooks that rely
on external crates (`split_word_bounds`, Unicode case mapping, the Unicode
word class `\w`) are modelled as noted; no theorem below evaluates them on
inputs where the model and the crate could differ. -/

/-- Modelled from the spec: the per-language `LANGDATA_STR` JSON lives in the
missing `constants.rs`.  Its shape is `{abbreviation_char, abbreviations,
exclamation_words}` per identifier; the English entry is populated with
representative values implied by the spec's examples (the abbreviation `Dr`
suppresses a boundary, stylized exclamations such as `Yahoo!` are listed),
all other entries carry the period marker and empty sets. -/
def enAbbreviations : List (List Char) :=
  [s2l "Dr", s2l "Mr", s2l "Mrs", s2l "St", s2l "vs", s2l "u", s2l "s"]

/-- Modelled from the spec (see `enAbbreviations`). -/
def enExclamationWords : List (List Char) :=
  [s2l "Yahoo!", s2l "Yum!"]

/-- A language with every hook at its default body and the modelled default
data entry. -/
def mkDefaultLanguage (code : List Char) : Language :=
  { language_code := code
    terminators := GLOBAL_SENTENCE_TERMINATORS
    continue_in_next_word := default_cnw
    is_punctuation_between_quotes := false
    get_lastword := default_lastword
    abbreviation_char := ['.']
    abbreviations := []
    exclamation_words := [] }

/-- Lowercase Cyrillic range of the classes `[а-я]` used by the Russian and
Kazakh overrides. -/
def isCyrLower (c : Char) : Bool := 0x430 ≤ c.toNat && c.toNat ≤ 0x44F

/-- Modelled: the regex word class `\w` is Unicode-aware in the source; the
ASCII word characters and the Cyrillic letters cover the texts of this
development. -/
def isWordChar (c : Char) : Bool :=
  isAsciiLower c || isAsciiUpper c || isAsciiDigit c || c == '_' ||
    isCyrLower c || (0x410 ≤ c.toNat && c.toNat ≤ 0x42F)

/-- A regex of shape `^\W*[class]`: skip the maximal run of non-word
characters, then require a class character (the skipped characters cannot be
class characters, so backtracking adds nothing). -/
def cnwSkipMatch (cls : Char → Bool) (t : List Char) : Bool :=
  match t.dropWhile (fun c => !(isWordChar c)) with
  | [] => false
  | c :: _ => cls c

/-- `RU_CNW`, the regex `^[0-9a-zа-я]`. -/
def ru_cnw : List Char → Bool
  | [] => false
  | c :: _ => isAsciiDigit c || isAsciiLower c || isCyrLower c

/-- Trim Unicode whitespace from both ends, as `str::trim`. -/
def trimWs (l : List Char) : List Char :=
  ((l.dropWhile isWs).reverse.dropWhile isWs).reverse

/-- Modelled from the `unicode-segmentation` crate: the first segment of
`split_word_bounds` is the maximal run of word characters when the text
starts with one, and the single first character otherwise. -/
def firstWordSeg : List Char → Option (List Char)
  | [] => none
  | c :: rest =>
    if isWordChar c then some (c :: rest.takeWhile isWordChar) else some [c]

/-- The literal pattern `"?!."` stripped from month words. -/
def patQED : List Char := ['?', '!', '.']

/-- `str::strip_prefix` with a literal pattern. -/
def stripPre (pat w : List Char) : Option (List Char) :=
  if w.take pat.length == pat then some (w.drop pat.length) else none

/-- `str::strip_suffix` with a literal pattern. -/
def stripSuf (pat w : List Char) : Option (List Char) :=
  if pat.length ≤ w.length && w.drop (w.length - pat.length) == pat then
    some (w.take (w.length - pat.length))
  else none

/-- `to_title_case` of the source: uppercase the first grapheme (modelled as
the first character), keep the rest. -/
def toTitleCase : List Char → List Char
  | [] => []
  | c :: cs => c.toUpper :: cs

/-- The German/Finnish/Slovak `continue_in_next_word` body: the basic class
match, or the first following word — after the literal `"?!."` strip quirk
of the source (the suffix strip falls back to the unstripped word) — being a
month name, as-is or title-cased. -/
def month_cnw (months : List (List Char)) (t : List Char) : Bool :=
  if cnwSkipMatch (fun c => isAsciiDigit c || isAsciiLower c) t then true
  else
    match firstWordSeg (trimWs t) with
    | none => false
    | some w =>
      let w1 := (stripPre patQED w).getD w
      let w2 := (stripSuf patQED w1).getD w
      if w2 == [] then false
      else months.contains w2 || months.contains (toTitleCase w2)

/-- `DE_MONTHS` of the source. -/
def DE_MONTHS : List (List Char) :=
  [s2l "Januar", s2l "Februar", s2l "März", s2l "April", s2l "Mai",
   s2l "Juni", s2l "Juli", s2l "August", s2l "September", s2l "Oktober",
   s2l "November", s2l "Dezember"]

/-- `FI_MONTHS` of the source. -/
def FI_MONTHS : List (List Char) :=
  [s2l "tammikuu", s2l "helmikuu", s2l "maaliskuu", s2l "huhtikuu",
   s2l "toukokuu", s2l "kesäkuu", s2l "heinäkuu", s2l "elokuu",
   s2l "syyskuu", s2l "lokakuu", s2l "marraskuu", s2l "joulukuu"]

/-- `SK_MONTHS` of the source. -/
def SK_MONTHS : List (List Char) :=
  [s2l "Január", s2l "Február", s2l "Marec", s2l "Apríl", s2l "Máj",
   s2l "Jún", s2l "Júl", s2l "August", s2l "September", s2l "Október",
   s2l "November", s2l "December", s2l "Januára", s2l "Februára",
   s2l "Marca", s2l "Apríla", s2l "Mája", s2l "Júna", s2l "Júla",
   s2l "Augusta", s2l "Septembra", s2l "Októbra", s2l "Novembra",
   s2l "Decembra"]

/-- Split on the Italian elision marker `l` + apostrophe (the two-character
separator of `last_word.split("l'")`), keeping regex-split edge pieces. -/
def split_la : List Char → List (List Char)
  | [] => [[]]
  | [c] => [[c]]
  | c :: d :: rest =>
    if c == 'l' && d == aposChar then [] :: split_la rest
    else
      match split_la (d :: rest) with
      | [] => [[c]]
      | p :: ps => (c :: p) :: ps

/-- The Italian `get_lastword` override: the default last word, further split
on the elision marker, last piece. -/
def it_lastword (t : List Char) : Option (List Char) :=
  match default_lastword t with
  | none => none
  | some w => (split_la w).getLast?

/-- `EL_SENTENCE_BOUNDARY_REGEX`: the global terminators plus the
semicolon. -/
def elTerminators : List Char := GLOBAL_SENTENCE_TERMINATORS ++ [';']

/-- `HY_SENTENCE_BOUNDARY_REGEX`: the global terminators without the plain
period, plus the Armenian full stop, exclamation mark and the colon. -/
def hyTerminators : List Char :=
  GLOBAL_SENTENCE_TERMINATORS.filter (fun c => c ≠ '.') ++ ['։', '՜', ':']

/-- `MY_SENTENCE_BOUNDARY_REGEX`: the global terminators plus the Burmese
mark. -/
def myTerminators : List Char := GLOBAL_SENTENCE_TERMINATORS ++ ['၏']

def amLanguage : Language := mkDefaultLanguage (s2l "am")

def arLanguage : Language := mkDefaultLanguage (s2l "ar")

def bgLanguage : Language := mkDefaultLanguage (s2l "bg")

def bnLanguage : Language := mkDefaultLanguage (s2l "bn")

def caLanguage : Language := mkDefaultLanguage (s2l "ca")

/-- English, with the modelled language-data entry. -/
def enLanguage : Language :=
  { mkDefaultLanguage (s2l "en") with
    abbreviations := enAbbreviations
    exclamation_words := enExclamationWords }

def elLanguage : Language :=
  { mkDefaultLanguage (s2l "el") with terminators := elTerminators }

def daLanguage : Language :=
  { mkDefaultLanguage (s2l "da") with
    continue_in_next_word := cnwSkipMatch (fun c => isAsciiDigit c || isAsciiLower c) }

def deLanguage : Language :=
  { mkDefaultLanguage (s2l "de") with
    is_punctuation_between_quotes := true
    continue_in_next_word := month_cnw DE_MONTHS }

def esLanguage : Language := mkDefaultLanguage (s2l "es")

def fiLanguage : Language :=
  { mkDefaultLanguage (s2l "fi") with continue_in_next_word := month_cnw FI_MONTHS }

def frLanguage : Language := mkDefaultLanguage (s2l "fr")

def guLanguage : Language := mkDefaultLanguage (s2l "gu")

def hiLanguage : Language := mkDefaultLanguage (s2l "hi")

def hyLanguage : Language :=
  { mkDefaultLanguage (s2l "hy") with terminators := hyTerminators }

def itLanguage : Language :=
  { mkDefaultLanguage (s2l "it") with get_lastword := it_lastword }

def kkLanguage : Language :=
  { mkDefaultLanguage (s2l "kk") with
    continue_in_next_word :=
      cnwSkipMatch (fun c => isAsciiDigit c || isAsciiLower c || isCyrLower c) }

def knLanguage : Language := mkDefaultLanguage (s2l "kn")

def mlLanguage : Language := mkDefaultLanguage (s2l "ml")

def mrLanguage : Language := mkDefaultLanguage (s2l "mr")

def myLanguage : Language :=
  { mkDefaultLanguage (s2l "my") with terminators := myTerminators }

def nlLanguage : Language := mkDefaultLanguage (s2l "nl")

def orLanguage : Language := mkDefaultLanguage (s2l "or")

def paLanguage : Language := mkDefaultLanguage (s2l "pa")

def skLanguage : Language :=
  { mkDefaultLanguage (s2l "sk") with continue_in_next_word := month_cnw SK_MONTHS }

def plLanguage : Language := mkDefaultLanguage (s2l "pl")

def ptLanguage : Language := mkDefaultLanguage (s2l "pt")

def ruLanguage : Language :=
  { mkDefaultLanguage (s2l "ru") with continue_in_next_word := ru_cnw }

def taLanguage : Language := mkDefaultLanguage (s2l "ta")

def teLanguage : Language := mkDefaultLanguage (s2l "te")

/-- `SUPPORTED_LANGUAGES`, in the array order of the source. -/
def SUPPORTED_LANGUAGES : List Language :=
  [amLanguage, arLanguage, bgLanguage, bnLanguage, caLanguage, enLanguage,
   elLanguage, daLanguage, deLanguage, esLanguage, fiLanguage, frLanguage,
   guLanguage, hiLanguage, hyLanguage, itLanguage, kkLanguage, knLanguage,
   mlLanguage, mrLanguage, myLanguage, nlLanguage, orLanguage, paLanguage,
   skLanguage, plLanguage, ptLanguage, ruLanguage, taLanguage, teLanguage]

/-- `LANGUAGE_REGISTRY`: each supported language keyed by its code. -/
def LANGUAGE_REGISTRY : List (List Char × Language) :=
  SUPPORTED_LANGUAGES.map (fun l => (l.language_code, l))

/-- Registry lookup (`LANGUAGE_REGISTRY.get(lang_code)`). -/
def registry_get (code : List Char) : Option Language :=
  (LANGUAGE_REGISTRY.find? (fun p => p.1 == code)).map (·.2)

/-- Modelled from the spec: `LANGUAGE_FALLBACKS` lives in the missing
`constants.rs`; the spec only states it maps identifiers to ordered fallback
lists, so the modelled table is kept empty — the resolver below is faithful
for any table contents. -/
def LANGUAGE_FALLBACKS : List (List Char × List (List Char)) := []

/-- Modelled from the spec: the global default fallback list used when an
identifier has no configured entry. -/
def DEFAULT_FALLBACK_LANGUAGE : List (List Char) := [s2l "en"]

/-- Fallback-table lookup. -/
def lookup_fallbacks (code : List Char) : Option (List (List Char)) :=
  (LANGUAGE_FALLBACKS.find? (fun p => p.1 == code)).map (·.2)

/-- `get_language`, as a worklist recursion: try the head code against the
registry, on a miss recurse into its fallback chain, then into the remaining
codes.  The `fuel` bounds the depth of the unguarded Rust recursion; any
fuel exceeding the (finite, acyclic) chain depth produces the Rust
behaviour. -/
def get_language_aux : Nat → List (List Char) → Option Language
  | 0, _ => none
  | _ + 1, [] => none
  | n + 1, code :: rest =>
    match registry_get code with
    | some l => some l
    | none =>
      match get_language_aux n ((lookup_fallbacks code).getD DEFAULT_FALLBACK_LANGUAGE) with
      | some l => some l
      | none => get_language_aux n rest

/-- `get_language` of the source. -/
def get_language (fuel : Nat) (code : List Char) : Option Language :=
  get_language_aux fuel [code]

/-- The error message of `segment`'s `bail!`. -/
def err_msg (code : List Char) : List Char :=
  s2l "Language `" ++ code ++ s2l "` not supported"

/-- The crate-level `segment`: resolve the language, then run its
segmentation.  The `Except` error is the unresolved-identifier failure; the
inner `Option` is `none` when the segmentation loop panics. -/
def segment (code text : List Char) : Except (List Char) (Option (List (List Char))) :=
  match get_language 40 code with
  | none => .error (err_msg code)
  | some l => .ok (l.segment text)

/-- Input on which the segmentation slicing panics: the forced
numbered-reference boundary lands at offset 7 (the reference end 5 is inside
the grapheme cluster `.` + U+0301, so the next recorded offset is 7), while
the later accepted match-end boundary is 6, and the slice `7..6` makes
`&paragraph[i..j]` panic. -/
def c1FailText : List Char :=
  ['a', '.', '[', '7', ']', '.', Char.ofNat 0x301, 'X']

/-- Lower bound carried by the scanner state: the open run start, or the
current position. -/
def stLow (i : Nat) : Option Nat → Nat
  | none => i
  | some s0 => s0

/-- Total length of a cluster list. -/
def sumLens (cls : List (List Char)) : Nat := (cls.map List.length).sum

/-- Decidable test: the candidate of this match is not forced by a numbered
reference (skipped and accepted candidates qualify alike). -/
def notForcedAt (L : Language) (text : List Char) (offs : List Nat)
    (m : Nat × Nat) : Bool :=
  match L.find_boundary text offs m with
  | .found _ true => false
  | _ => true

/-- Input whose forced numbered-reference boundary lands inside the
reference: the combining acute (U+0301) joins the terminator's cluster, so
the byte position `match_end + reference byte length` falls one two-byte
character short of the reference end, and the snap reaches only the start of
`]` (character offset 5) while the reference ends at character offset 6. -/
def c5FailText : List Char :=
  ['a', '.', Char.ofNat 0x301, '[', '7', ']', 'X']

/-- `Covers text n m out`: the elements of `out` are, in order, paragraph
markers or space-trimmed slices of `text`, drawn from regions that advance
monotonically starting at `n`; `m` bounds the region reached at the end
(`n ≤ m` when nothing is consumed). -/
inductive Covers (text : List Char) : Nat → Nat → List (List Char) → Prop where
  | nil : ∀ {n m : Nat}, n ≤ m → Covers text n m []
  | marker : ∀ {n m : Nat} {rest : List (List Char)},
      Covers text n m rest → Covers text n m (nlMarker :: rest)
  | piece : ∀ {n m s e : Nat} {el : List Char} {rest : List (List Char)},
      n ≤ s → s ≤ e → e ≤ text.length →
      el = trimSpace (extr text s e) →
      Covers text e m rest → Covers text n m (el :: rest)

/-- Paragraph decomposition: the pieces are successive slices of the text. -/
inductive Paras (text : List Char) : Nat → List (List Char) → Prop where
  | nil : ∀ {n : Nat}, Paras text n []
  | cons : ∀ {n o : Nat} {p : List Char} {ps : List (List Char)},
      n ≤ o → o + p.length ≤ text.length →
      p = extr text o (o + p.length) →
      Paras text (o + p.length) ps →
      Paras text n (p :: ps)

/-!  Claim theorems: C9, C7, C5, C6, C8, and the C2/C1 evaluations. -/

/-- C9: for every language that does not override `continue_in_next_word`
(for example `en` and `fr`, whose hook is the default body), the default
returns true exactly when the first character of the tail is an ASCII
lowercase letter or an ASCII digit; in particular it is false on the empty
tail and false on a tail beginning with the non-ASCII letter `é`. -/
theorem C9_default_continue_in_next_word :
    (enLanguage.continue_in_next_word = default_cnw ∧
      frLanguage.continue_in_next_word = default_cnw) ∧
    (∀ s : List Char, default_cnw s = true ↔
      ∃ c cs, s = c :: cs ∧ (isAsciiLower c = true ∨ isAsciiDigit c = true)) ∧
    default_cnw [] = false ∧
    (∀ cs : List Char, default_cnw ('é' :: cs) = false) := by
  refine ⟨⟨rfl, rfl⟩, ?_, rfl, fun cs => rfl⟩
  intro s
  cases s with
  | nil => simp [default_cnw]
  | cons c cs =>
    simp only [default_cnw, Bool.or_eq_true]
    constructor
    · intro h
      exact ⟨c, cs, rfl, h⟩
    · rintro ⟨c2, cs2, heq, h⟩
      cases heq
      exact h

/-- C7, counterexample: the claim states that `is_exclamation_word` holds
exactly when the last word concatenated with the terminator character of the
boundary under consideration is a known exclamation word; this fails because
the source always appends the literal exclamation mark.  At the English head
`Visit Yahoo` with terminator `?`, the hook returns true although `Yahoo?`
is not in the exclamation-word set. -/
theorem C7_counterexample :
    ¬ (∀ (L : Language) (head tl : List Char) (sep : Char),
        L.is_exclamation_word head tl = true ↔
          ∃ w, L.get_lastword head = some w ∧ (w ++ [sep]) ∈ L.exclamation_words) := by
  intro h
  obtain ⟨w, hw, hmem⟩ :=
    (h enLanguage (s2l "Visit Yahoo") (s2l " Sure") '?').mp (by decide)
  have hw2 : w = s2l "Yahoo" := by
    have hcomp : enLanguage.get_lastword (s2l "Visit Yahoo") = some (s2l "Yahoo") := by
      decide
    rw [hcomp] at hw
    exact (Option.some.inj hw).symm
  subst hw2
  revert hmem
  decide

/-- C7, amended: `is_exclamation_word(head)` returns true exactly when the
last word of `head` with a literal exclamation mark appended — regardless of
the terminator of the boundary under consideration — is a member of the
language's exclamation-word set. -/
theorem C7_amended_exclamation_word :
    ∀ (L : Language) (head tl : List Char),
      L.is_exclamation_word head tl = true ↔
        ∃ w, L.get_lastword head = some w ∧ (w ++ ['!']) ∈ L.exclamation_words := by
  intro L head tl
  unfold Language.is_exclamation_word
  cases hlw : L.get_lastword head with
  | none => simp
  | some w =>
    constructor
    · intro h
      exact ⟨w, rfl, List.elem_iff.mp h⟩
    · rintro ⟨w2, hw2, h⟩
      cases Option.some.inj hw2
      exact List.elem_iff.mpr h

/-- C5, counterexample: the claim says the forced boundary is the grapheme
offset immediately after the last reference; but the source adds the byte
length of the reference to the byte offset of the match end, and when
combining marks sit between the terminator and the reference that sum lands
inside (or before) the reference.  On `a` `.` U+0301 `[7]X` the reference
occupies character offsets 3 to 6, yet the forced boundary comes out as 5,
inside the reference, not the offset 6 immediately after it. -/
theorem C5_counterexample :
    next_grapheme (graphemeOffsets c5FailText) 1 = some 3 ∧
    numRefMatch (c5FailText.drop 3) = some 3 ∧
    enLanguage.find_boundary c5FailText (graphemeOffsets c5FailText) (1, 2) =
      .found 5 true ∧
    5 < 3 + 3 ∧ 6 ∈ graphemeOffsets c5FailText :=
  ⟨by decide, by decide, by decide, by decide, by decide⟩

/-- C5, amended: when the tail (the text from the next grapheme after the
match start) begins with a numbered-reference run of length `rl`,
`find_boundary` forces the boundary — the next recorded grapheme offset
after the byte position `match_end + reference byte length`, or the
character position of that byte position itself when no offset follows —
with the forced flag set, for every language, so `continue_in_next_word`,
`is_abbreviation` and `is_exclamation_word` are never consulted, and the
boundary loop pushes it for every skip-range list, bypassing skip-range
suppression. -/
theorem C5_amended_forced_numref :
    ∀ (L : Language) (text : List Char) (offs : List Nat)
      (ranges ms : List (Nat × Nat)) (m : Nat × Nat) (nco rl : Nat),
      next_grapheme offs m.1 = some nco →
      numRefMatch (text.drop nco) = some rl →
      L.find_boundary text offs m =
          .found (forcedBoundary text offs m.2 nco rl) true ∧
      segment_loop L text offs ranges (m :: ms) =
        (segment_loop L text offs ranges ms).map
          ((forcedBoundary text offs m.2 nco rl) :: ·) := by
  intro L text offs ranges ms m nco rl h1 h2
  have hfb : L.find_boundary text offs m =
      .found (forcedBoundary text offs m.2 nco rl) true := by
    unfold Language.find_boundary
    rw [h1]
    simp only [h2]
  refine ⟨hfb, ?_⟩
  simp only [segment_loop, hfb]

/-- C5, amended, witness: on the English text `a.[7] b` with the match
`(1, 2)` the reference run has length 3 and the boundary is forced past it
for every skip-range list. -/
theorem C5_amended_forced_numref_witness :
    enLanguage.find_boundary (s2l "a.[7] b") (graphemeOffsets (s2l "a.[7] b")) (1, 2) =
        .found (forcedBoundary (s2l "a.[7] b") (graphemeOffsets (s2l "a.[7] b"))
          (1, 2).2 2 3) true ∧
      segment_loop enLanguage (s2l "a.[7] b") (graphemeOffsets (s2l "a.[7] b")) [] [(1, 2)] =
        (segment_loop enLanguage (s2l "a.[7] b") (graphemeOffsets (s2l "a.[7] b")) [] []).map
          ((forcedBoundary (s2l "a.[7] b") (graphemeOffsets (s2l "a.[7] b"))
            (1, 2).2 2 3) :: ·) :=
  C5_amended_forced_numref enLanguage (s2l "a.[7] b") (graphemeOffsets (s2l "a.[7] b"))
    [] [] (1, 2) 2 3 (by decide) (by decide)

/-- C6: the skip-range loop applied to an accepted non-forced boundary `b`
consults only the first range `(qstart, qend)` with `qstart < b < qend`: the
boundary is snapped to `qend` and kept when the next grapheme after `b`
equals `qend` and the language treats punctuation between quotes as
sentence-final, it is discarded otherwise, and a boundary contained in no
range is kept unchanged. -/
theorem C6_skip_range_consultation :
    ∀ (L : Language) (offs : List Nat) (ranges : List (Nat × Nat)) (b : Nat),
      apply_skip_ranges L offs b ranges =
        match ranges.find? (fun r => decide (r.1 < b) && decide (b < r.2)) with
        | none => some b
        | some (_, qe) =>
          if ((next_grapheme offs b).getD b == qe && L.is_punctuation_between_quotes) then
            some qe
          else none := by
  intro L offs ranges b
  induction ranges with
  | nil => rfl
  | cons r rest ih =>
    obtain ⟨qs, qe⟩ := r
    rw [List.find?_cons]
    unfold apply_skip_ranges
    cases h : (decide (qs < b) && decide (b < qe)) with
    | true => simp [h]
    | false => simp [h, ih]

/-- C8: for every identifier the registry (directly or through fallback)
resolves, `segment` on the empty text succeeds and returns the empty
sentence sequence. -/
theorem C8_empty_text :
    ∀ (code : List Char) (L : Language), get_language 40 code = some L →
      segment code [] = .ok (some []) := by
  intro code L h
  have hseg : L.segment [] = some [] := rfl
  unfold segment
  rw [h]
  exact congrArg Except.ok hseg

/-- C8 witness at the supported identifier `en`. -/
theorem C8_empty_text_witness : segment (s2l "en") [] = .ok (some []) :=
  C8_empty_text (s2l "en") enLanguage rfl

/-- C2, counterexample: the claim says every result that is empty after
trimming is discarded, so no output element other than the paragraph marker
is the empty string; but the source drops a slice only when it is empty
before trimming, so the all-space final slice of `Hi. ` is emitted as the
empty string. -/
theorem C2_counterexample :
    enLanguage.segment (s2l "Hi. ") = some [s2l "Hi.", []] ∧
      ([] : List Char) ≠ nlMarker :=
  ⟨by decide, by decide⟩

/-- C2, amended: the emitted sentences of a paragraph are exactly, in order,
the space-trimmed slices between consecutive boundaries (and the final
boundary and the paragraph length), where a slice is discarded when it is
empty before trimming; a nonempty all-space slice is therefore emitted as
the empty string. -/
theorem C2_amended_slicing :
    ∀ (para : List Char) (bs : List Nat) (out : List (List Char)),
      slicesOut para bs = some out →
      out = (slicePairs bs para.length).filterMap
        (fun p => if extr para p.1 p.2 = [] then none
                  else some (trimSpace (extr para p.1 p.2))) := by
  intro para bs out h
  suffices haux : ∀ (prs : List (Nat × Nat)) (out2 : List (List Char)),
      slicesAux para prs = some out2 →
      out2 = prs.filterMap
        (fun p => if extr para p.1 p.2 = [] then none
                  else some (trimSpace (extr para p.1 p.2))) from haux _ _ h
  intro prs
  induction prs with
  | nil =>
    intro out2 h2
    have h3 := Option.some.inj h2
    simp [← h3]
  | cons pr rest ih =>
    obtain ⟨i, j⟩ := pr
    intro out2 h2
    unfold slicesAux at h2
    split at h2
    case isFalse hc => exact absurd h2 (by simp)
    case isTrue hc =>
      cases hrest : slicesAux para rest with
      | none => rw [hrest] at h2; exact absurd h2 (by simp)
      | some out3 =>
        rw [hrest] at h2
        have h4 := Option.some.inj h2
        rw [List.filterMap_cons]
        by_cases hsl : extr para i j = []
        · rw [← h4]
          simp [hsl, ih out3 hrest]
        · rw [← h4]
          simp [hsl, ih out3 hrest]

/-- C2, amended, witness: the boundary list `[0, 3]` of the paragraph
`Hi. ` yields the sentence `Hi.` followed by the empty string. -/
theorem C2_amended_slicing_witness :
    [s2l "Hi.", ([] : List Char)] =
      (slicePairs [0, 3] (s2l "Hi. ").length).filterMap
        (fun p => if extr (s2l "Hi. ") p.1 p.2 = [] then none
                  else some (trimSpace (extr (s2l "Hi. ") p.1 p.2))) :=
  C2_amended_slicing (s2l "Hi. ") [0, 3] [s2l "Hi.", []] (by decide)

/-- C1: the claim says that for every identifier that resolves, `segment`
returns the sentence list and never fails, regardless of the text; `en`
resolves, yet on `c1FailText` the boundary list comes out as `[0, 7, 6]` and
the slicing loop panics (modelled by `none`), so the call aborts instead of
returning a sentence list. -/
theorem C1_panic_on_resolvable_input :
    get_language 40 (s2l "en") = some enLanguage ∧
    boundariesOf enLanguage c1FailText = some [0, 7, 6] ∧
    enLanguage.segment c1FailText = none ∧
    segment (s2l "en") c1FailText = .ok none :=
  ⟨rfl, by decide, by decide, rfl⟩

/-!  Bounds of the skip-range matchers: every computed range ends within the
text.  These feed the boundary-bound invariant (C4) and the output-covering
invariant (C10). -/

lemma countWhile_le (p : Char → Bool) : ∀ l : List Char, countWhile p l ≤ l.length := by
  intro l
  induction l with
  | nil => simp [countWhile]
  | cons c rest ih =>
    unfold countWhile
    split
    · simpa using Nat.succ_le_succ ih
    · exact Nat.zero_le _

lemma findIdxP_lt (p : Char → Bool) :
    ∀ (l : List Char) (q : Nat), findIdxP p l = some q → q < l.length := by
  intro l
  induction l with
  | nil => intro q h; exact absurd h (by simp [findIdxP])
  | cons c rest ih =>
    intro q h
    unfold findIdxP at h
    split at h
    · cases Option.some.inj h
      simp
    · obtain ⟨q0, hq0, hq⟩ := Option.map_eq_some'.mp h
      subst hq
      simpa using Nat.succ_lt_succ (ih q0 hq0)

lemma tryQuoteAt_le :
    ∀ (ps : List (Char × Char)) (c : Char) (rest : List Char) (L : Nat),
      tryQuoteAt ps c rest = some L → 1 ≤ L ∧ L ≤ rest.length + 1 := by
  intro ps
  induction ps with
  | nil => intro c rest L h; exact absurd h (by simp [tryQuoteAt])
  | cons pr ps ih =>
    obtain ⟨lq, rq⟩ := pr
    intro c rest L h
    unfold tryQuoteAt at h
    split at h
    · cases hc : tryPairClose rq rest with
      | some q =>
        rw [hc] at h
        cases Option.some.inj h
        have := findIdxP_lt (· == rq) rest q hc
        omega
      | none => rw [hc] at h; exact ih c rest L h
    · exact ih c rest L h

lemma parenWalk_le (op : Char) :
    ∀ (l : List Char) (w : Nat), parenWalk op l = some w → 1 ≤ w ∧ w ≤ l.length := by
  intro l
  induction l using parenWalk.induct op with
  | case1 => intro w h; exact absurd h (by simp [parenWalk])
  | case2 d h1 =>
    intro w h
    unfold parenWalk at h
    rw [if_pos h1] at h
    cases Option.some.inj h
    simp
  | case3 d h1 =>
    intro w h
    unfold parenWalk at h
    rw [if_neg h1] at h
    exact absurd h (by simp)
  | case4 d e rest2 h1 =>
    intro w h
    unfold parenWalk at h
    rw [if_pos h1] at h
    cases Option.some.inj h
    simp
  | case5 d e rest2 h1 h2 =>
    intro w h
    unfold parenWalk at h
    rw [if_neg h1, if_pos h2] at h
    exact absurd h (by simp)
  | case6 d e rest2 h1 h2 h3 ih =>
    intro w h
    unfold parenWalk at h
    rw [if_neg h1, if_neg h2, if_pos h3] at h
    obtain ⟨w0, hw0, hw⟩ := Option.map_eq_some'.mp h
    subst hw
    have := ih w0 hw0
    simp only [List.length_cons]
    omega
  | case7 d e rest2 h1 h2 h3 ih =>
    intro w h
    unfold parenWalk at h
    rw [if_neg h1, if_neg h2, if_neg h3] at h
    obtain ⟨w0, hw0, hw⟩ := Option.map_eq_some'.mp h
    subst hw
    have := ih w0 hw0
    simp only [List.length_cons] at this ⊢
    omega

lemma tryParenAt_le :
    ∀ (c : Char) (rest : List Char) (L : Nat),
      tryParenAt c rest = some L → 1 ≤ L ∧ L ≤ rest.length + 1 := by
  intro c rest L h
  unfold tryParenAt at h
  split at h
  · obtain ⟨w0, hw0, hw⟩ := Option.map_eq_some'.mp h
    subst hw
    have := parenWalk_le c rest w0 hw0
    omega
  · exact absurd h (by simp)

lemma findDomainDot_le :
    ∀ (l : List Char) (d0 L2 : Nat), findDomainDot l d0 = some L2 → L2 ≤ l.length := by
  intro l d0
  induction d0 with
  | zero => intro L2 h; exact absurd h (by simp [findDomainDot])
  | succ d ih =>
    intro L2 h
    unfold findDomainDot at h
    split at h
    case isTrue hdot =>
      have hdot2 : l.getD (d + 1) ' ' = '.' := by simpa using hdot
      have hlt : d + 1 < l.length := by
        rcases Nat.lt_or_ge (d + 1) l.length with hlt | hge
        · exact hlt
        · rw [List.getD_eq_default _ _ hge] at hdot2
          exact absurd hdot2 (by decide)
      simp only at h
      split at h
      case isTrue ht =>
        cases Option.some.inj h
        have hcw : countWhile isTldChar (l.drop (d + 2)) ≤ l.length - (d + 2) := by
          have h1 := countWhile_le isTldChar (l.drop (d + 2))
          simpa using h1
        have hmin : min 7 (countWhile isTldChar (l.drop (d + 2))) ≤
            countWhile isTldChar (l.drop (d + 2)) := Nat.min_le_right _ _
        omega
      case isFalse => exact ih L2 h
    case isFalse => exact ih L2 h

lemma tryEmailAt_le :
    ∀ (c : Char) (rest : List Char) (L : Nat),
      tryEmailAt c rest = some L → 1 ≤ L ∧ L ≤ rest.length + 1 := by
  intro c rest L h
  unfold tryEmailAt at h
  split at h
  case isFalse => exact absurd h (by simp)
  case isTrue =>
    simp only [Nat.add_sub_cancel] at h
    split at h
    next heq => exact absurd h (by simp)
    next a rest2 heq =>
      split at h
      next =>
        split at h
        next L2 hdot =>
          cases Option.some.inj h
          have hcw : countWhile isLocalChar rest ≤ rest.length := countWhile_le _ _
          have hlen : (rest.drop (countWhile isLocalChar rest)).length =
              rest.length - countWhile isLocalChar rest := List.length_drop _ _
          rw [heq] at hlen
          simp only [List.length_cons] at hlen
          have hL2 := findDomainDot_le rest2 _ L2 hdot
          omega
        next hdot => exact absurd h (by simp)
      next => exact absurd h (by simp)

lemma scanAux_bounds (try_at : Char → List Char → Option Nat)
    (htry : ∀ c rest L, try_at c rest = some L → 1 ≤ L ∧ L ≤ rest.length + 1) :
    ∀ (fuel : Nat) (l : List Char) (i s e : Nat),
      (s, e) ∈ scanAux try_at fuel i l → i ≤ s ∧ s < e ∧ e ≤ i + l.length := by
  intro fuel
  induction fuel with
  | zero =>
    intro l i s e hmem
    cases l <;> simp [scanAux] at hmem
  | succ n ih =>
    intro l i s e hmem
    cases l with
    | nil => simp [scanAux] at hmem
    | cons c rest =>
      unfold scanAux at hmem
      cases htr : try_at c rest with
      | some L =>
        rw [htr] at hmem
        have hL := htry c rest L htr
        rcases List.mem_cons.mp hmem with heq | hrec
        · cases heq
          simp only [List.length_cons]
          omega
        · have := ih (rest.drop (L - 1)) (i + L) s e hrec
          have hdl : (rest.drop (L - 1)).length = rest.length - (L - 1) :=
            List.length_drop _ _
          simp only [List.length_cons]
          omega
      | none =>
        rw [htr] at hmem
        have := ih rest (i + 1) s e hmem
        simp only [List.length_cons]
        omega

lemma skippable_ranges_le (L : Language) (t : List Char) :
    ∀ r ∈ L.get_skippable_ranges t, r.2 ≤ t.length := by
  intro r hr
  obtain ⟨s, e⟩ := r
  unfold Language.get_skippable_ranges at hr
  rcases List.mem_append.mp hr with hq | hr2
  · rcases List.mem_append.mp hq with hq | he
    · have := scanAux_bounds _ (fun c rest L => tryQuoteAt_le QUOTE_PAIRS_ARRAY c rest L)
        (t.length + 1) t 0 s e hq
      simpa using this.2.2
    · have := scanAux_bounds _ tryEmailAt_le (t.length + 1) t 0 s e he
      simpa using this.2.2
  · have := scanAux_bounds _ tryParenAt_le (t.length + 1) t 0 s e hr2
    simpa using this.2.2

/-!  Properties of the terminator-run scanner: every match is a nonempty run
of terminator characters within the text, and the matches are ordered. -/

lemma runsAux_bounds (isT : Char → Bool) :
    ∀ (l : List Char) (i : Nat) (st : Option Nat),
      (∀ s0, st = some s0 → s0 < i) →
      ∀ s e, (s, e) ∈ findRunsAux isT i st l → s < e ∧ e ≤ i + l.length := by
  intro l
  induction l with
  | nil =>
    intro i st hst s e hmem
    cases st with
    | none => simp [findRunsAux] at hmem
    | some s0 =>
      simp only [findRunsAux, List.mem_singleton, Prod.mk.injEq] at hmem
      obtain ⟨h1, h2⟩ := hmem
      subst h1; subst h2
      exact ⟨hst s rfl, by simp⟩
  | cons c rest ih =>
    intro i st hst s e hmem
    cases st with
    | none =>
      unfold findRunsAux at hmem
      split at hmem
      · have := ih (i + 1) (some i) (by intro s0 h0; cases Option.some.inj h0; omega) s e hmem
        simp only [List.length_cons]
        omega
      · have := ih (i + 1) none (by intro s0 h0; cases h0) s e hmem
        simp only [List.length_cons]
        omega
    | some s0 =>
      have hs0 := hst s0 rfl
      unfold findRunsAux at hmem
      split at hmem
      · have := ih (i + 1) (some s0)
          (by intro s1 h0; cases Option.some.inj h0; omega) s e hmem
        simp only [List.length_cons]
        omega
      · rcases List.mem_cons.mp hmem with heq | hrec
        · simp only [Prod.mk.injEq] at heq
          obtain ⟨h1, h2⟩ := heq
          subst h1; subst h2
          constructor
          · exact hst s rfl
          · simp only [List.length_cons]
            omega
        · have := ih (i + 1) none (by intro s1 h0; cases h0) s e hrec
          simp only [List.length_cons]
          omega

lemma runsAux_chain (isT : Char → Bool) :
    ∀ (l : List Char) (i : Nat) (st : Option Nat),
      (∀ s0, st = some s0 → s0 ≤ i) →
      List.Chain' (fun r r2 : Nat × Nat => r.2 < r2.1) (findRunsAux isT i st l) ∧
      (∀ s e, (s, e) ∈ findRunsAux isT i st l → i ≤ e ∧ stLow i st ≤ s) := by
  intro l
  induction l with
  | nil =>
    intro i st hst
    cases st with
    | none => simp [findRunsAux]
    | some s0 =>
      refine ⟨by simp [findRunsAux], ?_⟩
      intro s e hmem
      simp only [findRunsAux, List.mem_singleton, Prod.mk.injEq] at hmem
      obtain ⟨h1, h2⟩ := hmem
      subst h1; subst h2
      exact ⟨le_refl _, le_refl _⟩
  | cons c rest ih =>
    intro i st hst
    cases st with
    | none =>
      unfold findRunsAux
      split
      · have := ih (i + 1) (some i) (by intro s0 h0; cases Option.some.inj h0; omega)
        refine ⟨this.1, ?_⟩
        intro s e hmem
        have h2 := this.2 s e hmem
        simp only [stLow] at h2 ⊢
        omega
      · have := ih (i + 1) none (by intro s0 h0; cases h0)
        refine ⟨this.1, ?_⟩
        intro s e hmem
        have h2 := this.2 s e hmem
        simp only [stLow] at h2 ⊢
        omega
    | some s0 =>
      have hs0 := hst s0 rfl
      unfold findRunsAux
      split
      · have := ih (i + 1) (some s0) (by intro s1 h0; cases Option.some.inj h0; omega)
        refine ⟨this.1, ?_⟩
        intro s e hmem
        have h2 := this.2 s e hmem
        simp only [stLow] at h2 ⊢
        omega
      · have hrec := ih (i + 1) none (by intro s1 h0; cases h0)
        constructor
        · rw [List.chain'_cons']
          refine ⟨?_, hrec.1⟩
          intro y hy
          have hmem := List.mem_of_mem_head? hy
          obtain ⟨ys, ye⟩ := y
          have h2 := (hrec.2 ys ye hmem).2
          simp only [stLow] at h2
          simp only []
          omega
        · intro s e hmem
          rcases List.mem_cons.mp hmem with heq | hrec2
          · simp only [Prod.mk.injEq] at heq
            obtain ⟨h1, h2⟩ := heq
            subst h1; subst h2
            exact ⟨le_refl _, le_refl _⟩
          · have h2 := hrec.2 s e hrec2
            simp only [stLow] at h2 ⊢
            omega

lemma runsAux_class (isT : Char → Bool) (text : List Char) :
    ∀ (l : List Char) (i : Nat) (st : Option Nat),
      l = text.drop i →
      (∀ s0, st = some s0 → ∀ k, s0 ≤ k → k < i → isT (text.getD k ' ') = true) →
      ∀ s e, (s, e) ∈ findRunsAux isT i st l →
        ∀ k, s ≤ k → k < e → isT (text.getD k ' ') = true := by
  intro l
  induction l with
  | nil =>
    intro i st hsuf hst s e hmem k hk1 hk2
    cases st with
    | none => simp [findRunsAux] at hmem
    | some s0 =>
      simp only [findRunsAux, List.mem_singleton, Prod.mk.injEq] at hmem
      obtain ⟨h1, h2⟩ := hmem
      subst h1; subst h2
      exact hst s rfl k hk1 hk2
  | cons c rest ih =>
    intro i st hsuf hst s e hmem k hk1 hk2
    have hci : text.getD i ' ' = c := by
      have h0 : (text.drop i)[0]? = some c := by rw [← hsuf]; simp
      have h1 : text[i]? = some c := by
        have h2 := List.getElem?_drop text i 0
        rw [h0] at h2
        simpa using h2.symm
      rw [List.getD_eq_getElem?_getD, h1]
      rfl
    have hrest : rest = text.drop (i + 1) := by
      have h1 : (text.drop i).tail = text.drop (i + 1) := List.tail_drop text i
      rw [← hsuf] at h1
      simpa using h1
    cases st with
    | none =>
      unfold findRunsAux at hmem
      split at hmem
      case isTrue hct =>
        refine ih (i + 1) (some i) hrest ?_ s e hmem k hk1 hk2
        intro s0 h0 k2 hk21 hk22
        cases Option.some.inj h0
        have hk2i : k2 = i := by omega
        subst hk2i
        rw [hci]
        exact hct
      case isFalse hct =>
        exact ih (i + 1) none hrest (by intro s0 h0; cases h0) s e hmem k hk1 hk2
    | some s0 =>
      unfold findRunsAux at hmem
      split at hmem
      case isTrue hct =>
        refine ih (i + 1) (some s0) hrest ?_ s e hmem k hk1 hk2
        intro s1 h0 k2 hk21 hk22
        have hs1 : s1 = s0 := (Option.some.inj h0).symm
        subst hs1
        rcases Nat.lt_or_ge k2 i with hlt | hge
        · exact hst s1 rfl k2 hk21 hlt
        · have hk2i : k2 = i := by omega
          subst hk2i
          rw [hci]
          exact hct
      case isFalse hct =>
        rcases List.mem_cons.mp hmem with heq | hrec
        · simp only [Prod.mk.injEq] at heq
          obtain ⟨h1, h2⟩ := heq
          subst h1; subst h2
          exact hst s rfl k hk1 hk2
        · exact ih (i + 1) none hrest (by intro s1 h0; cases h0) s e hrec k hk1 hk2

/-!  Grapheme-offset facts. -/

lemma gcAux_sum : ∀ (l curRev : List Char),
    sumLens (gcAux curRev l) = curRev.length + l.length := by
  intro l
  induction l with
  | nil => intro curRev; simp [gcAux, sumLens]
  | cons d rest ih =>
    intro curRev
    unfold gcAux
    split
    · have h1 := ih (d :: curRev)
      simp only [List.length_cons] at h1 ⊢
      omega
    · have h1 := ih [d]
      simp only [sumLens, List.map_cons, List.sum_cons, List.length_reverse,
        List.length_cons, List.length_nil] at h1 ⊢
      omega

lemma gcAux_ne_nil : ∀ (l curRev : List Char), curRev ≠ [] →
    ∀ cl ∈ gcAux curRev l, cl ≠ [] := by
  intro l
  induction l with
  | nil =>
    intro curRev hcur cl hcl
    simp only [gcAux, List.mem_singleton] at hcl
    subst hcl
    simpa using hcur
  | cons d rest ih =>
    intro curRev hcur cl hcl
    unfold gcAux at hcl
    split at hcl
    · exact ih (d :: curRev) (by simp) cl hcl
    · rcases List.mem_cons.mp hcl with heq | hrec
      · subst heq; simpa using hcur
      · exact ih [d] (by simp) cl hrec

lemma offsetsFrom_lt : ∀ (cls : List (List Char)) (pos : Nat),
    (∀ cl ∈ cls, cl ≠ []) →
    ∀ o ∈ offsetsFrom pos cls, o < pos + sumLens cls := by
  intro cls
  induction cls with
  | nil => intro pos _ o ho; simp [offsetsFrom] at ho
  | cons cl rest ih =>
    intro pos hne o ho
    have hcl : 1 ≤ cl.length :=
      List.length_pos.mpr (hne cl (List.mem_cons_self _ _))
    simp only [offsetsFrom, List.mem_cons] at ho
    rcases ho with heq | hrec
    · subst heq
      simp only [sumLens, List.map_cons, List.sum_cons]
      omega
    · have h1 := ih (pos + cl.length) (fun c hc => hne c (List.mem_cons_of_mem _ hc)) o hrec
      simp only [sumLens, List.map_cons, List.sum_cons] at h1 ⊢
      omega

lemma graphemeOffsets_lt (t : List Char) : ∀ o ∈ graphemeOffsets t, o < t.length := by
  intro o ho
  cases t with
  | nil => simp [graphemeOffsets, graphemeClusters, offsetsFrom] at ho
  | cons c rest =>
    have hne := gcAux_ne_nil rest [c] (by simp)
    have h1 := offsetsFrom_lt (gcAux [c] rest) 0 hne o
      (by simpa [graphemeOffsets, graphemeClusters] using ho)
    have hsum := gcAux_sum rest [c]
    simp only [List.length_cons, List.length_nil] at hsum
    simp only [List.length_cons]
    omega

lemma next_grapheme_mem (offs : List Nat) (pos q : Nat) :
    next_grapheme offs pos = some q → q ∈ offs ∧ pos < q := by
  intro h
  refine ⟨List.mem_of_find?_eq_some h, ?_⟩
  have h1 := List.find?_some h
  simpa using h1

/-!  Byte-offset facts. -/

lemma utf8Size_pos (c : Char) : 1 ≤ utf8Size c := by
  unfold utf8Size
  split
  · omega
  · split
    · omega
    · split <;> omega

lemma byteIdx_mono (t : List Char) : ∀ i j, i ≤ j → byteIdx t i ≤ byteIdx t j := by
  induction t with
  | nil =>
    intro i j _
    simp [byteIdx]
  | cons c rest ih =>
    intro i j hij
    cases i with
    | zero =>
      have h0 : byteIdx (c :: rest) 0 = 0 := rfl
      rw [h0]
      exact Nat.zero_le _
    | succ i2 =>
      cases j with
      | zero => exact absurd hij (by omega)
      | succ j2 =>
        simp only [byteIdx, List.take_succ_cons, utf8Len]
        have := ih i2 j2 (by omega)
        simp only [byteIdx] at this
        omega

lemma charAtByte_le (t : List Char) : ∀ b, charAtByte t b ≤ t.length := by
  induction t with
  | nil => intro b; simp [charAtByte]
  | cons c rest ih =>
    intro b
    unfold charAtByte
    split
    · exact Nat.zero_le _
    · have := ih (b - utf8Size c)
      simp only [List.length_cons]
      omega

lemma charAtByte_mono (t : List Char) : ∀ b b2, b ≤ b2 → charAtByte t b ≤ charAtByte t b2 := by
  induction t with
  | nil => intro b b2 _; simp [charAtByte]
  | cons c rest ih =>
    intro b b2 h
    unfold charAtByte
    split
    · exact Nat.zero_le _
    next hge =>
      split
      next hlt2 => omega
      next =>
        have := ih (b - utf8Size c) (b2 - utf8Size c) (by omega)
        omega

lemma charAtByte_byteIdx (t : List Char) : ∀ i, i ≤ t.length → charAtByte t (byteIdx t i) = i := by
  induction t with
  | nil =>
    intro i h
    simp only [List.length_nil, Nat.le_zero] at h
    subst h
    rfl
  | cons c rest ih =>
    intro i h
    cases i with
    | zero =>
      have h0 : byteIdx (c :: rest) 0 = 0 := rfl
      have hpos : 0 < utf8Size c := by
        have := utf8Size_pos c
        omega
      rw [h0]
      unfold charAtByte
      rw [if_pos hpos]
    | succ i2 =>
      simp only [byteIdx, List.take_succ_cons, utf8Len]
      unfold charAtByte
      rw [if_neg (by omega)]
      rw [Nat.add_sub_cancel_left]
      have hlen : i2 ≤ rest.length := by
        simp only [List.length_cons] at h
        omega
      have := ih i2 hlen
      simp only [byteIdx] at this
      omega

/-- The forced numbered-reference boundary is always positive (the match end
is positive and the text is nonempty). -/
lemma forcedBoundary_pos (text : List Char) (offs : List Nat) (me nco rl : Nat)
    (hme : 1 ≤ me) (hlen : 1 ≤ text.length) :
    0 < forcedBoundary text offs me nco rl := by
  unfold forcedBoundary
  simp only []
  split
  next o hfind =>
    have hlt := List.find?_some hfind
    simp only [decide_eq_true_eq] at hlt
    rcases Nat.eq_zero_or_pos o with h0 | h0
    · subst h0
      have hz : byteIdx text 0 = 0 := rfl
      rw [hz] at hlt
      omega
    · exact h0
  next hfind =>
    have h1 : byteIdx text 1 ≤ byteIdx text me := byteIdx_mono text 1 me hme
    have h3 := charAtByte_mono text (byteIdx text 1)
      (byteIdx text me + utf8Len ((text.drop nco).take rl)) (by omega)
    have h4 := charAtByte_byteIdx text 1 hlen
    omega

/-- The forced numbered-reference boundary never exceeds the text length
when every recorded offset is inside the text. -/
lemma forcedBoundary_le (text : List Char) (offs : List Nat) (me nco rl : Nat)
    (hoffs : ∀ o ∈ offs, o < text.length) :
    forcedBoundary text offs me nco rl ≤ text.length := by
  unfold forcedBoundary
  simp only []
  split
  next o hfind => exact Nat.le_of_lt (hoffs o (List.mem_of_find?_eq_some hfind))
  next => exact charAtByte_le text _

/-!  Sortedness of the Grapheme Offset Index, and the cluster-start
characterisation needed for the boundary-order invariant: every position
holding a non-extend character is a recorded cluster start. -/

lemma offsetsFrom_ge : ∀ (cls : List (List Char)) (pos : Nat),
    ∀ o ∈ offsetsFrom pos cls, pos ≤ o := by
  intro cls
  induction cls with
  | nil => intro pos o ho; simp [offsetsFrom] at ho
  | cons cl rest ih =>
    intro pos o ho
    simp only [offsetsFrom, List.mem_cons] at ho
    rcases ho with heq | hrec
    · omega
    · have := ih (pos + cl.length) o hrec
      omega

lemma offsetsFrom_chain : ∀ (cls : List (List Char)) (pos : Nat),
    (∀ cl ∈ cls, cl ≠ []) → List.Chain' (· < ·) (offsetsFrom pos cls) := by
  intro cls
  induction cls with
  | nil => intro pos _; simp [offsetsFrom]
  | cons cl rest ih =>
    intro pos hne
    have hcl : 1 ≤ cl.length :=
      List.length_pos.mpr (hne cl (List.mem_cons_self _ _))
    simp only [offsetsFrom]
    rw [List.chain'_cons']
    refine ⟨?_, ih (pos + cl.length) (fun c hc => hne c (List.mem_cons_of_mem _ hc))⟩
    intro y hy
    have hmem := List.mem_of_mem_head? hy
    have := offsetsFrom_ge rest (pos + cl.length) y hmem
    omega

lemma graphemeOffsets_pairwise (t : List Char) :
    List.Pairwise (· < ·) (graphemeOffsets t) := by
  cases t with
  | nil => simp [graphemeOffsets, graphemeClusters, offsetsFrom]
  | cons c rest =>
    have hch := offsetsFrom_chain (gcAux [c] rest) 0 (gcAux_ne_nil rest [c] (by simp))
    have heq : graphemeOffsets (c :: rest) = offsetsFrom 0 (gcAux [c] rest) := rfl
    rw [heq]
    exact List.chain'_iff_pairwise.mp hch

lemma next_grapheme_min (offs : List Nat) :
    ∀ (p q : Nat), List.Pairwise (· < ·) offs → next_grapheme offs p = some q →
      ∀ o ∈ offs, p < o → q ≤ o := by
  induction offs with
  | nil => intro p q _ h; cases h
  | cons a rest ih =>
    intro p q hpw h o ho hpo
    cases hpa : (decide (p < a)) with
    | true =>
      have hpa2 : (fun o => decide (p < o)) a = true := hpa
      unfold next_grapheme at h
      rw [List.find?_cons_of_pos (p := fun o => decide (p < o)) rest hpa2] at h
      have hqa : a = q := Option.some.inj h
      subst hqa
      rcases List.mem_cons.mp ho with heq | hrec
      · omega
      · have := (List.pairwise_cons.mp hpw).1 o hrec
        omega
    | false =>
      have hnpa : ¬ p < a := of_decide_eq_false hpa
      have hpa2 : ¬ (fun o => decide (p < o)) a = true := by simp [hnpa]
      unfold next_grapheme at h
      rw [List.find?_cons_of_neg (p := fun o => decide (p < o)) rest hpa2] at h
      rcases List.mem_cons.mp ho with heq | hrec
      · subst heq
        exact absurd hpo hnpa
      · exact ih p q (List.pairwise_cons.mp hpw).2 h o hrec hpo

lemma gcAux_nonempty : ∀ (l curRev : List Char), gcAux curRev l ≠ [] := by
  intro l
  induction l with
  | nil => intro curRev; simp [gcAux]
  | cons d rest ih =>
    intro curRev
    unfold gcAux
    split
    · exact ih (d :: curRev)
    · simp

lemma offsetsFrom_self_mem : ∀ (cls : List (List Char)) (pos : Nat),
    cls ≠ [] → pos ∈ offsetsFrom pos cls := by
  intro cls pos h
  cases cls with
  | nil => exact absurd rfl h
  | cons cl rest => simp [offsetsFrom]

lemma gcAux_offset_mem : ∀ (l curRev : List Char) (pos j : Nat),
    j < l.length → isExtendChar (l.getD j ' ') = false →
    pos + curRev.length + j ∈ offsetsFrom pos (gcAux curRev l) := by
  intro l
  induction l with
  | nil => intro curRev pos j hj _; simp at hj
  | cons d rest ih =>
    intro curRev pos j hj hne
    unfold gcAux
    split
    next hext =>
      cases j with
      | zero =>
        simp only [List.getD_cons_zero] at hne
        rw [hne] at hext
        cases hext
      | succ j2 =>
        have hj2 : j2 < rest.length := by
          simp only [List.length_cons] at hj
          omega
        have hne2 : isExtendChar (rest.getD j2 ' ') = false := by
          simpa only [List.getD_cons_succ] using hne
        have hrec := ih (d :: curRev) pos j2 hj2 hne2
        simp only [List.length_cons] at hrec
        have harith : pos + curRev.length + (j2 + 1) = pos + (curRev.length + 1) + j2 := by
          omega
        rw [harith]
        exact hrec
    next hext =>
      simp only [offsetsFrom, List.length_reverse]
      cases j with
      | zero =>
        refine List.mem_cons_of_mem _ ?_
        have hmem := offsetsFrom_self_mem (gcAux [d] rest) (pos + curRev.length)
          (gcAux_nonempty rest [d])
        simpa using hmem
      | succ j2 =>
        have hj2 : j2 < rest.length := by
          simp only [List.length_cons] at hj
          omega
        have hne2 : isExtendChar (rest.getD j2 ' ') = false := by
          simpa only [List.getD_cons_succ] using hne
        have hrec := ih [d] (pos + curRev.length) j2 hj2 hne2
        simp only [List.length_cons, List.length_nil] at hrec
        refine List.mem_cons_of_mem _ ?_
        have harith : pos + curRev.length + (j2 + 1) = pos + curRev.length + (0 + 1) + j2 := by
          omega
        rw [harith]
        exact hrec

lemma graphemeOffsets_mem_of_nonextend (t : List Char) (k : Nat) :
    k < t.length → isExtendChar (t.getD k ' ') = false → k ∈ graphemeOffsets t := by
  intro hk hne
  cases t with
  | nil => simp at hk
  | cons c rest =>
    have heq : graphemeOffsets (c :: rest) = offsetsFrom 0 (gcAux [c] rest) := rfl
    rw [heq]
    cases k with
    | zero => exact offsetsFrom_self_mem (gcAux [c] rest) 0 (gcAux_nonempty rest [c])
    | succ j =>
      have hj : j < rest.length := by
        simp only [List.length_cons] at hk
        omega
      have hne2 : isExtendChar (rest.getD j ' ') = false := by
        simpa only [List.getD_cons_succ] using hne
      have hrec := gcAux_offset_mem rest [c] 0 j hj hne2
      simp only [List.length_cons, List.length_nil] at hrec
      have harith : j + 1 = 0 + (0 + 1) + j := by omega
      rw [harith]
      exact hrec

/-!  Numbered-reference facts. -/

lemma nrAux_le : ∀ (l : List Char) (st : NrState) (pos : Nat) (last : Option Nat) (r : Nat),
    (∀ r0, last = some r0 → r0 ≤ pos) →
    nrAux st pos last l = some r → r ≤ pos + l.length := by
  intro l
  induction l with
  | nil =>
    intro st pos last r hlast h
    cases st <;>
      · simp only [nrAux] at h
        have := hlast r h
        omega
  | cons c rest ih =>
    intro st pos last r hlast h
    cases st
    · unfold nrAux at h
      split at h
      · have := ih _ (pos + 1) last r (by intro r0 h0; have := hlast r0 h0; omega) h
        simp only [List.length_cons]
        omega
      · have := hlast r h
        simp only [List.length_cons]
        omega
    · unfold nrAux at h
      split at h
      · have := ih _ (pos + 1) last r (by intro r0 h0; have := hlast r0 h0; omega) h
        simp only [List.length_cons]
        omega
      · have := hlast r h
        simp only [List.length_cons]
        omega
    · unfold nrAux at h
      split at h
      · have := ih _ (pos + 1) last r (by intro r0 h0; have := hlast r0 h0; omega) h
        simp only [List.length_cons]
        omega
      · split at h
        · have := ih _ (pos + 1) (some (pos + 1)) r
            (by intro r0 h0; cases Option.some.inj h0; omega) h
          simp only [List.length_cons]
          omega
        · have := hlast r h
          simp only [List.length_cons]
          omega

lemma numRefMatch_le (t : List Char) (rl : Nat) :
    numRefMatch t = some rl → rl ≤ t.length := by
  intro h
  have h1 := nrAux_le t .expectOpen 0 none rl (by intro r0 h0; cases h0) h
  simpa using h1

lemma numRefMatch_head (t : List Char) (rl : Nat) :
    numRefMatch t = some rl → ∃ rest, t = '[' :: rest := by
  intro h
  cases t with
  | nil => exact absurd h (by simp [numRefMatch, nrAux])
  | cons c rest =>
    refine ⟨rest, ?_⟩
    unfold numRefMatch nrAux at h
    split at h
    case isTrue hc =>
      have hc2 : c = '[' := by simpa using hc
      rw [hc2]
    case isFalse => exact absurd h (by simp)

/-!  Skip-range application facts. -/

lemma apply_skip_ranges_cases (L : Language) (offs : List Nat) :
    ∀ (ranges : List (Nat × Nat)) (b b2 : Nat),
      apply_skip_ranges L offs b ranges = some b2 →
      b ≤ b2 ∧ (b2 = b ∨ ∃ r ∈ ranges, b2 = r.2) := by
  intro ranges
  induction ranges with
  | nil =>
    intro b b2 h
    cases Option.some.inj h
    exact ⟨le_refl _, Or.inl rfl⟩
  | cons r rest ih =>
    obtain ⟨qs, qe⟩ := r
    intro b b2 h
    unfold apply_skip_ranges at h
    simp only at h
    split at h
    case isTrue hin =>
      split at h
      case isTrue hsnap =>
        cases Option.some.inj h
        have hblt : b < qe := of_decide_eq_true (Bool.and_elim_right hin)
        exact ⟨Nat.le_of_lt hblt, Or.inr ⟨(qs, qe), List.mem_cons_self _ _, rfl⟩⟩
      case isFalse => exact absurd h (by simp)
    case isFalse =>
      have h1 := ih b b2 h
      refine ⟨h1.1, ?_⟩
      rcases h1.2 with heq | ⟨r2, hr2, he2⟩
      · exact Or.inl heq
      · exact Or.inr ⟨r2, List.mem_cons_of_mem _ hr2, he2⟩

/-- A surviving boundary is either unchanged or snapped exactly to the next
recorded grapheme offset (the snap branch fires only when the next offset
equals the range end, and a boundary strictly below the range end cannot be
its own next offset). -/
lemma apply_skip_ranges_snap (L : Language) (offs : List Nat) :
    ∀ (ranges : List (Nat × Nat)) (b b2 : Nat),
      apply_skip_ranges L offs b ranges = some b2 →
      b2 = b ∨ (next_grapheme offs b = some b2 ∧ b < b2) := by
  intro ranges
  induction ranges with
  | nil =>
    intro b b2 h
    cases Option.some.inj h
    exact Or.inl rfl
  | cons r rest ih =>
    obtain ⟨qs, qe⟩ := r
    intro b b2 h
    unfold apply_skip_ranges at h
    simp only at h
    split at h
    case isTrue hin =>
      split at h
      case isTrue hsnap =>
        cases Option.some.inj h
        have hblt : b < qe := of_decide_eq_true (Bool.and_elim_right hin)
        have hng : (next_grapheme offs b).getD b = qe :=
          eq_of_beq (Bool.and_elim_left hsnap)
        refine Or.inr ⟨?_, hblt⟩
        cases hng2 : next_grapheme offs b with
        | none =>
          rw [hng2] at hng
          simp only [Option.getD_none] at hng
          omega
        | some x =>
          rw [hng2] at hng
          simp only [Option.getD_some] at hng
          rw [hng]
      case isFalse => exact absurd h (by simp)
    case isFalse => exact ih b b2 h

/-!  Inversion of `find_boundary`. -/

lemma find_boundary_found (L : Language) (text : List Char) (offs : List Nat)
    (m : Nat × Nat) (b : Nat) (forced : Bool) :
    L.find_boundary text offs m = .found b forced →
    (forced = true → ∃ nco rl, next_grapheme offs m.1 = some nco ∧
        numRefMatch (text.drop nco) = some rl ∧
        b = forcedBoundary text offs m.2 nco rl) ∧
    (forced = false → b = m.2) := by
  intro h
  unfold Language.find_boundary at h
  cases hng : next_grapheme offs m.1 with
  | none => rw [hng] at h; cases h
  | some nco =>
    rw [hng] at h
    simp only at h
    split at h
    next rl hnr =>
      injection h with h1 h2
      constructor
      · intro _
        exact ⟨nco, rl, rfl, hnr, h1.symm⟩
      · intro hfalse
        rw [← h2] at hfalse
        cases hfalse
    next hnr =>
      split at h
      · cases h
      · split at h
        · cases h
        · split at h
          · cases h
          · split at h
            · cases h
            · injection h with h1 h2
              constructor
              · intro htrue
                rw [← h2] at htrue
                cases htrue
              · intro _
                exact h1.symm

/-!  Boundary-list invariants (claims C3 and C4). -/

/-- The character of `t` at offset `i`, when the suffix there is known. -/
lemma getD_of_drop_cons (t : List Char) (i : Nat) (c : Char) (rest : List Char) :
    t.drop i = c :: rest → t.getD i ' ' = c := by
  intro h
  have h0 : (t.drop i)[0]? = some c := by rw [h]; simp
  have h1 : t[i]? = some c := by
    have h2 := List.getElem?_drop t i 0
    rw [h0] at h2
    simpa using h2.symm
  rw [List.getD_eq_getElem?_getD, h1]
  rfl

lemma segment_loop_pos (L : Language) (text : List Char) (offs : List Nat)
    (ranges : List (Nat × Nat)) :
    ∀ (ms : List (Nat × Nat)) (bl : List Nat),
      (∀ m ∈ ms, 1 ≤ m.2) →
      segment_loop L text offs ranges ms = some bl →
      ∀ b ∈ bl, 0 < b := by
  intro ms
  induction ms with
  | nil =>
    intro bl _ h b hb
    cases Option.some.inj h
    simp at hb
  | cons m ms ih =>
    obtain ⟨s, e⟩ := m
    intro bl hlt h b hb
    have he : 1 ≤ e := hlt (s, e) (List.mem_cons_self _ _)
    have hlt2 : ∀ m2 ∈ ms, 1 ≤ m2.2 :=
      fun m2 hm2 => hlt m2 (List.mem_cons_of_mem _ hm2)
    unfold segment_loop at h
    cases hfb : L.find_boundary text offs (s, e) with
    | abort => rw [hfb] at h; cases h
    | skip => rw [hfb] at h; exact ih bl hlt2 h b hb
    | found b0 fl =>
      cases fl with
      | true =>
        simp only [hfb] at h
        obtain ⟨bl0, hbl0, hbl⟩ := Option.map_eq_some'.mp h
        subst hbl
        rcases List.mem_cons.mp hb with heq | hbmem
        · obtain ⟨nco, rl, hng, hnr, hbform⟩ :=
            (find_boundary_found L text offs (s, e) b0 true hfb).1 rfl
          obtain ⟨rest2, hrest⟩ := numRefMatch_head (text.drop nco) rl hnr
          have hlen : nco < text.length := by
            have hl2 : text.length - nco = rest2.length + 1 := by
              have := congrArg List.length hrest
              simpa [List.length_drop] using this
            omega
          subst heq
          rw [hbform]
          exact forcedBoundary_pos text offs e nco rl he (by omega)
        · exact ih bl0 hlt2 hbl0 b hbmem
      | false =>
        simp only [hfb] at h
        have hb0 : b0 = e := (find_boundary_found L text offs (s, e) b0 false hfb).2 rfl
        cases hap : apply_skip_ranges L offs b0 ranges with
        | none => rw [hap] at h; exact ih bl hlt2 h b hb
        | some b2 =>
          rw [hap] at h
          obtain ⟨bl0, hbl0, hbl⟩ := Option.map_eq_some'.mp h
          subst hbl
          rcases List.mem_cons.mp hb with heq | hbmem
          · have := (apply_skip_ranges_cases L offs ranges b0 b2 hap).1
            omega
          · exact ih bl0 hlt2 hbl0 b hbmem

/-- In a strictly separated match list, every later match starts strictly
after the first match's end. -/
lemma chain_lt_all :
    ∀ (ms : List (Nat × Nat)) (m : Nat × Nat),
      List.Chain' (fun r r2 : Nat × Nat => r.2 < r2.1) (m :: ms) →
      (∀ m2 ∈ ms, m2.1 < m2.2) →
      ∀ m2 ∈ ms, m.2 < m2.1 := by
  intro ms
  induction ms with
  | nil => intro m _ _ m2 hm2; simp at hm2
  | cons m1 rest ih =>
    intro m hchain hlt m2 hm2
    have h1 : m.2 < m1.1 := (List.chain'_cons.mp hchain).1
    rcases List.mem_cons.mp hm2 with heq | hrec
    · subst heq; exact h1
    · have h2 := ih m1 (List.chain'_cons.mp hchain).2
        (fun x hx => hlt x (List.mem_cons_of_mem _ hx)) m2 hrec
      have h3 : m1.1 < m1.2 := hlt m1 (List.mem_cons_self _ _)
      omega

/-- The boundary loop emits a strictly increasing list when none of its
candidates is forced by a numbered reference and the language's terminators
are not combining marks: an accepted boundary is its match end, a snap only
reaches the next recorded grapheme offset, and the start of every later
terminator run is a recorded cluster start beyond it. -/
lemma segment_loop_noforce (L : Language) (para : List Char)
    (hterm : ∀ c ∈ L.terminators, isExtendChar c = false) :
    ∀ (ms : List (Nat × Nat)) (out : List Nat),
      (∀ s e, (s, e) ∈ ms → s < e ∧ e ≤ para.length ∧
        ∀ k, s ≤ k → k < e → (L.terminators.contains (para.getD k ' ')) = true) →
      List.Chain' (fun r r2 : Nat × Nat => r.2 < r2.1) ms →
      (∀ m ∈ ms, notForcedAt L para (graphemeOffsets para) m = true) →
      segment_loop L para (graphemeOffsets para) (L.get_skippable_ranges para) ms =
        some out →
      List.Chain' (· < ·) out ∧ ∀ b ∈ out, ∃ s e, (s, e) ∈ ms ∧ s < b := by
  intro ms
  induction ms with
  | nil =>
    intro out _ _ _ h
    cases Option.some.inj h
    exact ⟨by simp, by simp⟩
  | cons m ms ih =>
    obtain ⟨s, e⟩ := m
    intro out hms hchain hnf h
    have hm := hms s e (List.mem_cons_self _ _)
    have hms2 : ∀ s2 e2, (s2, e2) ∈ ms → s2 < e2 ∧ e2 ≤ para.length ∧
        ∀ k, s2 ≤ k → k < e2 → (L.terminators.contains (para.getD k ' ')) = true :=
      fun s2 e2 hm2 => hms s2 e2 (List.mem_cons_of_mem _ hm2)
    have hchain2 := (List.chain'_cons'.mp hchain).2
    have hnf2 : ∀ m2 ∈ ms, notForcedAt L para (graphemeOffsets para) m2 = true :=
      fun m2 hm2 => hnf m2 (List.mem_cons_of_mem _ hm2)
    have hlt2 : ∀ m2 ∈ ms, m2.1 < m2.2 := by
      intro m2 hm2
      obtain ⟨s2, e2⟩ := m2
      exact (hms2 s2 e2 hm2).1
    have hlater := chain_lt_all ms (s, e) hchain hlt2
    have hlater2 : ∀ s2 e2, (s2, e2) ∈ ms → e < s2 := by
      intro s2 e2 hm2
      have := hlater (s2, e2) hm2
      simpa using this
    have hstart : ∀ s2 e2, (s2, e2) ∈ ms → s2 ∈ graphemeOffsets para := by
      intro s2 e2 hm2
      have hb := hms2 s2 e2 hm2
      have hcls : (L.terminators.contains (para.getD s2 ' ')) = true :=
        hb.2.2 s2 (le_refl _) hb.1
      have hlt : s2 < para.length := by omega
      exact graphemeOffsets_mem_of_nonextend para s2 hlt
        (hterm (para.getD s2 ' ') (List.elem_iff.mp hcls))
    unfold segment_loop at h
    cases hfb : L.find_boundary para (graphemeOffsets para) (s, e) with
    | abort => rw [hfb] at h; cases h
    | skip =>
      rw [hfb] at h
      have hrec := ih out hms2 hchain2 hnf2 h
      refine ⟨hrec.1, ?_⟩
      intro b hb
      obtain ⟨s2, e2, hm2, hs2⟩ := hrec.2 b hb
      exact ⟨s2, e2, List.mem_cons_of_mem _ hm2, hs2⟩
    | found b0 fl =>
      cases fl with
      | true =>
        have hnfnow := hnf (s, e) (List.mem_cons_self _ _)
        unfold notForcedAt at hnfnow
        rw [hfb] at hnfnow
        cases hnfnow
      | false =>
        simp only [hfb] at h
        have hb0 : b0 = e := (find_boundary_found L para (graphemeOffsets para)
          (s, e) b0 false hfb).2 rfl
        cases hap : apply_skip_ranges L (graphemeOffsets para) b0
            (L.get_skippable_ranges para) with
        | none =>
          rw [hap] at h
          have hrec := ih out hms2 hchain2 hnf2 h
          refine ⟨hrec.1, ?_⟩
          intro b hb
          obtain ⟨s2, e2, hm2, hs2⟩ := hrec.2 b hb
          exact ⟨s2, e2, List.mem_cons_of_mem _ hm2, hs2⟩
        | some b2 =>
          rw [hap] at h
          obtain ⟨out0, hout0, hout⟩ := Option.map_eq_some'.mp h
          subst hout
          have hrec := ih out0 hms2 hchain2 hnf2 hout0
          have hsnap := apply_skip_ranges_snap L (graphemeOffsets para)
            (L.get_skippable_ranges para) b0 b2 hap
          rw [hb0] at hsnap
          have hse : s < e := hm.1
          have hb2gt : s < b2 := by
            rcases hsnap with heq | ⟨_, hlt⟩
            · omega
            · omega
          have hb2le : ∀ s2 e2, (s2, e2) ∈ ms → b2 ≤ s2 := by
            intro s2 e2 hm2
            rcases hsnap with heq | ⟨hng, _⟩
            · have := hlater2 s2 e2 hm2
              omega
            · exact next_grapheme_min (graphemeOffsets para) e b2
                (graphemeOffsets_pairwise para) hng s2 (hstart s2 e2 hm2)
                (hlater2 s2 e2 hm2)
          have hball : ∀ b ∈ out0, b2 < b := by
            intro b hb
            obtain ⟨s2, e2, hm2, hs2⟩ := hrec.2 b hb
            have h1 := hb2le s2 e2 hm2
            omega
          constructor
          · rw [List.chain'_cons']
            refine ⟨?_, hrec.1⟩
            intro y hy
            exact hball y (List.mem_of_mem_head? hy)
          · intro b hb
            rcases List.mem_cons.mp hb with heq | hbmem
            · subst heq
              exact ⟨s, e, List.mem_cons_self _ _, hb2gt⟩
            · obtain ⟨s2, e2, hm2, hs2⟩ := hrec.2 b hbmem
              exact ⟨s2, e2, List.mem_cons_of_mem _ hm2, hs2⟩

lemma segment_loop_le (L : Language) (para : List Char) :
    ∀ (ms : List (Nat × Nat)) (bl : List Nat),
      (∀ s e, (s, e) ∈ ms → s < e ∧ e ≤ para.length) →
      segment_loop L para (graphemeOffsets para) (L.get_skippable_ranges para) ms =
        some bl →
      ∀ b ∈ bl, b ≤ para.length := by
  intro ms
  induction ms with
  | nil =>
    intro bl _ h b hb
    cases Option.some.inj h
    simp at hb
  | cons m ms ih =>
    obtain ⟨s, e⟩ := m
    intro bl hms h b hb
    have hm := hms s e (List.mem_cons_self _ _)
    have hms2 : ∀ s2 e2, (s2, e2) ∈ ms → s2 < e2 ∧ e2 ≤ para.length :=
      fun s2 e2 hm2 => hms s2 e2 (List.mem_cons_of_mem _ hm2)
    unfold segment_loop at h
    cases hfb : L.find_boundary para (graphemeOffsets para) (s, e) with
    | abort => rw [hfb] at h; cases h
    | skip => rw [hfb] at h; exact ih bl hms2 h b hb
    | found b0 fl =>
      cases fl with
      | true =>
        simp only [hfb] at h
        obtain ⟨bl0, hbl0, hbl⟩ := Option.map_eq_some'.mp h
        subst hbl
        rcases List.mem_cons.mp hb with heq | hbmem
        · obtain ⟨nco, rl, hng, hnr, hbform⟩ :=
            (find_boundary_found L para (graphemeOffsets para) (s, e) b0 true hfb).1 rfl
          subst heq
          rw [hbform]
          exact forcedBoundary_le para (graphemeOffsets para) e nco rl
            (graphemeOffsets_lt para)
        · exact ih bl0 hms2 hbl0 b hbmem
      | false =>
        simp only [hfb] at h
        have hb0 : b0 = e := (find_boundary_found L para (graphemeOffsets para)
          (s, e) b0 false hfb).2 rfl
        cases hap : apply_skip_ranges L (graphemeOffsets para) b0
            (L.get_skippable_ranges para) with
        | none => rw [hap] at h; exact ih bl hms2 h b hb
        | some b2 =>
          rw [hap] at h
          obtain ⟨bl0, hbl0, hbl⟩ := Option.map_eq_some'.mp h
          subst hbl
          rcases List.mem_cons.mp hb with heq | hbmem
          · rcases (apply_skip_ranges_cases L (graphemeOffsets para)
                (L.get_skippable_ranges para) b0 b2 hap).2 with heq2 | ⟨r, hr, he2⟩
            · omega
            · rw [heq, he2]
              exact skippable_ranges_le L para r hr
          · exact ih bl0 hms2 hbl0 b hbmem

/-- C3, counterexample: the claim requires each appended boundary to be
strictly greater than every boundary already in the list; on `a.[7]! x` the
forced numbered-reference boundary 6 is followed by the accepted match-end
boundary 6, so the list `[0, 6, 6]` is not strictly increasing. -/
theorem C3_counterexample :
    boundariesOf enLanguage (s2l "a.[7]! x") = some [0, 6, 6] ∧
      ¬ List.Pairwise (· < ·) [0, 6, 6] :=
  ⟨by decide, by decide⟩

/-- C3, amended: the resolved-boundary list always begins with 0 and every
later boundary is strictly positive; and when no candidate of the paragraph
is forced by a numbered reference (the language's terminators not being
combining marks, which holds for every registered language), the list is
strictly increasing — a boundary snapped to a skip-range end preserves the
strict increase, because the snap only reaches the next recorded grapheme
offset and the start of every later terminator run is a cluster start at or
beyond it.  Only a forced numbered-reference boundary can tie or overtake a
later boundary, as the counterexample shows. -/
theorem C3_amended_boundaries :
    ∀ (L : Language) (para : List Char) (bs : List Nat),
      (∀ c ∈ L.terminators, isExtendChar c = false) →
      boundariesOf L para = some bs →
      (∃ bl, bs = 0 :: bl ∧ ∀ b ∈ bl, 0 < b) ∧
      ((∀ m ∈ findRuns (fun c => L.terminators.contains c) para,
          notForcedAt L para (graphemeOffsets para) m = true) →
        List.Pairwise (· < ·) bs) := by
  intro L para bs hterm h
  unfold boundariesOf at h
  simp only at h
  obtain ⟨bl, hbl, hbs⟩ := Option.map_eq_some'.mp h
  subst hbs
  have hrunpos : ∀ m ∈ findRuns (fun c => L.terminators.contains c) para, 1 ≤ m.2 := by
    intro m hm
    obtain ⟨s, e⟩ := m
    have := runsAux_bounds (fun c => L.terminators.contains c) para 0 none
      (by intro s0 h0; cases h0) s e hm
    simpa using by omega
  constructor
  · exact ⟨bl, rfl, segment_loop_pos L para (graphemeOffsets para)
      (L.get_skippable_ranges para) _ bl hrunpos hbl⟩
  · intro hok
    have hchain := (runsAux_chain (fun c => L.terminators.contains c) para 0 none
      (by intro s0 h0; cases h0)).1
    have hbnd : ∀ s e, (s, e) ∈ findRuns (fun c => L.terminators.contains c) para →
        s < e ∧ e ≤ para.length ∧
        ∀ k, s ≤ k → k < e → (L.terminators.contains (para.getD k ' ')) = true := by
      intro s e hm
      have hb1 := runsAux_bounds (fun c => L.terminators.contains c) para 0 none
        (by intro s0 h0; cases h0) s e hm
      have hcls := runsAux_class (fun c => L.terminators.contains c) para para 0 none
        (by simp) (by intro s0 h0; cases h0) s e hm
      exact ⟨hb1.1, by simpa using hb1.2, hcls⟩
    have hnof := segment_loop_noforce L para hterm
      (findRuns (fun c => L.terminators.contains c) para) bl hbnd hchain hok hbl
    rw [List.pairwise_cons]
    refine ⟨?_, List.chain'_iff_pairwise.mp hnof.1⟩
    intro b hb
    obtain ⟨s2, e2, _, hs2⟩ := hnof.2 b hb
    omega

/-- C3, amended, witness: the paragraph `Hi. Yo.` has no forced candidate
and its boundary list `[0, 3]` is strictly increasing. -/
theorem C3_amended_boundaries_witness :
    (∃ bl, [0, 3] = 0 :: bl ∧ ∀ b ∈ bl, 0 < b) ∧
      List.Pairwise (· < ·) ([0, 3] : List Nat) := by
  have h := C3_amended_boundaries enLanguage (s2l "Hi. Yo.") [0, 3]
    (by decide) (by decide)
  exact ⟨h.1, h.2 (by decide)⟩

/-- C4, counterexample: on `a.[7]` the forced boundary is the paragraph
length 5, which is not a member of the Grapheme Offset Index
`[0, 1, 2, 3, 4]`, so an emitted boundary need not belong to the index. -/
theorem C4_counterexample :
    boundariesOf enLanguage (s2l "a.[7]") = some [0, 5] ∧
      5 ∉ graphemeOffsets (s2l "a.[7]") :=
  ⟨by decide, by decide⟩

/-- C4, amended: every resolved boundary lies within `[0, paragraph length]`
(for any language whose terminator set does not contain the opening bracket,
as in every registered language): forced numbered-reference boundaries can
equal the paragraph length and accepted match ends can fall inside a
multi-byte grapheme cluster, so membership in the Grapheme Offset Index does
not hold, but no boundary ever exceeds the paragraph. -/
theorem C4_amended_boundary_bounds :
    ∀ (L : Language) (para : List Char) (bs : List Nat),
      '[' ∉ L.terminators →
      boundariesOf L para = some bs →
      ∀ b ∈ bs, b ≤ para.length := by
  intro L para bs _hbr h b hb
  unfold boundariesOf at h
  simp only at h
  obtain ⟨bl, hbl, hbs⟩ := Option.map_eq_some'.mp h
  subst hbs
  rcases List.mem_cons.mp hb with heq | hmem
  · subst heq
    exact Nat.zero_le _
  · refine segment_loop_le L para _ bl ?_ hbl b hmem
    intro s e hms
    have hb1 := runsAux_bounds (fun c => L.terminators.contains c) para 0 none
      (by intro s0 h0; cases h0) s e hms
    exact ⟨hb1.1, by simpa using hb1.2⟩

/-- C4, amended, witness: the boundary 3 of the paragraph `Hi. Yo.` (whose
boundary list is `[0, 3]`) stays within the paragraph length. -/
theorem C4_amended_boundary_bounds_witness :
    3 ≤ (s2l "Hi. Yo.").length :=
  C4_amended_boundary_bounds enLanguage (s2l "Hi. Yo.") [0, 3]
    (by decide) (by decide) 3 (by decide)

/-!  Output covering (claim C10): every element of the returned list is the
paragraph marker or the space-trimmed content of a contiguous slice of the
input, and the slice-derived elements appear in left-to-right source
order. -/

lemma Covers.weaken_start {text : List Char} {n n2 m : Nat} {out : List (List Char)}
    (h : Covers text n m out) (h2 : n2 ≤ n) : Covers text n2 m out := by
  induction h generalizing n2 with
  | nil hnm => exact Covers.nil (by omega)
  | marker _ ih => exact Covers.marker (ih h2)
  | piece hns hse helen heleq hrest ih =>
    exact Covers.piece (by omega) hse helen heleq hrest

lemma Covers.weaken_end {text : List Char} {n m m2 : Nat} {out : List (List Char)}
    (h : Covers text n m out) (h2 : m ≤ m2) : Covers text n m2 out := by
  induction h with
  | nil hnm => exact Covers.nil (by omega)
  | marker _ ih => exact Covers.marker (ih h2)
  | piece hns hse helen heleq _ ih =>
    exact Covers.piece hns hse helen heleq (ih h2)

lemma Covers.append {text : List Char} {n k m : Nat} {xs ys : List (List Char)}
    (h1 : Covers text n k xs) (h2 : Covers text k m ys) :
    Covers text n m (xs ++ ys) := by
  induction h1 with
  | nil hnm => exact h2.weaken_start hnm
  | marker _ ih => exact Covers.marker (ih h2)
  | piece hns hse helen heleq _ ih =>
    exact Covers.piece hns hse helen heleq (ih h2)

/-- Slice composition: a slice of a slice is a slice of the original. -/
lemma extr_extr (text : List Char) (o plen s e : Nat) (he : e ≤ plen) (hs : s ≤ e) :
    extr (extr text o (o + plen)) s e = extr text (o + s) (o + e) := by
  unfold extr
  rw [Nat.add_sub_cancel_left, List.drop_take, List.drop_drop, List.take_take]
  have h1 : min (e - s) (plen - s) = e - s := Nat.min_eq_left (by omega)
  have h2 : o + e - (o + s) = e - s := by omega
  rw [h1, h2]

lemma Covers.shift {para : List Char} {a b : Nat} {out : List (List Char)}
    (text : List Char) (o : Nat)
    (hpara : para = extr text o (o + para.length))
    (hlen : o + para.length ≤ text.length) :
    Covers para a b out → Covers text (o + a) (o + b) out := by
  intro h
  induction h with
  | nil hnm => exact Covers.nil (by omega)
  | marker _ ih => exact Covers.marker ih
  | @piece n m s e el rest hns hse helen heleq _ ih =>
    refine Covers.piece (s := o + s) (e := o + e)
      (by omega) (by omega) (by omega) ?_ ih
    rw [heleq]
    conv_lhs => rw [hpara]
    rw [extr_extr text o para.length s e helen hse]

lemma slicesAux_covers (para : List Char) :
    ∀ (prs : List (Nat × Nat)) (out : List (List Char)) (n : Nat),
      slicesAux para prs = some out →
      List.Chain' (fun p q : Nat × Nat => p.2 = q.1) prs →
      (∀ p ∈ prs.head?, n ≤ p.1) →
      n ≤ para.length →
      Covers para n para.length out := by
  intro prs
  induction prs with
  | nil =>
    intro out n h _ _ hn
    cases Option.some.inj h
    exact Covers.nil hn
  | cons pr rest ih =>
    obtain ⟨i, j⟩ := pr
    intro out n h hchain hhead hn
    unfold slicesAux at h
    split at h
    case isFalse => exact absurd h (by simp)
    case isTrue hc =>
      have hij : i ≤ j := of_decide_eq_true (Bool.and_elim_left hc)
      have hjl : j ≤ para.length := of_decide_eq_true (Bool.and_elim_right hc)
      have hni : n ≤ i := hhead (i, j) rfl
      have hheadrest : ∀ p ∈ rest.head?, j ≤ p.1 := by
        intro p hp
        have h2 := (List.chain'_cons'.mp hchain).1 p hp
        simp only [] at h2
        omega
      have hchainrest := (List.chain'_cons'.mp hchain).2
      cases hrest : slicesAux para rest with
      | none => rw [hrest] at h; exact absurd h (by simp)
      | some out2 =>
        rw [hrest] at h
        have h4 := Option.some.inj h
        have hcov := ih out2 j hrest hchainrest hheadrest hjl
        by_cases hsl : extr para i j = []
        · have hout : out2 = out := by
            rw [← h4]
            simp [hsl]
          rw [← hout]
          exact hcov.weaken_start (by omega)
        · have hout : trimSpace (extr para i j) :: out2 = out := by
            rw [← h4]
            simp [hsl]
          rw [← hout]
          exact Covers.piece hni hij hjl rfl hcov

lemma slicePairs_head : ∀ (b : Nat) (bs : List Nat) (plen : Nat),
    ∃ x, (slicePairs (b :: bs) plen).head? = some (b, x) := by
  intro b bs plen
  cases bs with
  | nil => exact ⟨plen, rfl⟩
  | cons b2 bs2 => exact ⟨b2, rfl⟩

lemma slicePairs_chain : ∀ (bs : List Nat) (plen : Nat),
    List.Chain' (fun p q : Nat × Nat => p.2 = q.1) (slicePairs bs plen) := by
  intro bs
  induction bs with
  | nil => intro plen; simp [slicePairs]
  | cons b bs ih =>
    intro plen
    cases bs with
    | nil => simp [slicePairs]
    | cons b2 bs2 =>
      have hstep : slicePairs (b :: b2 :: bs2) plen =
          (b, b2) :: slicePairs (b2 :: bs2) plen := by
        simp [slicePairs]
      rw [hstep, List.chain'_cons']
      refine ⟨?_, ih plen⟩
      intro y hy
      obtain ⟨x, hx⟩ := slicePairs_head b2 bs2 plen
      rw [hx] at hy
      have hyx : (b2, x) = y := by simpa using hy
      rw [← hyx]

lemma paraSentences_covers (L : Language) (para : List Char) (ss : List (List Char)) :
    paraSentences L para = some ss → Covers para 0 para.length ss := by
  intro h
  unfold paraSentences at h
  cases hbo : boundariesOf L para with
  | none => rw [hbo] at h; cases h
  | some bs =>
    rw [hbo] at h
    have hbs : ∃ bl, bs = 0 :: bl := by
      unfold boundariesOf at hbo
      simp only at hbo
      obtain ⟨bl, _, hbs⟩ := Option.map_eq_some'.mp hbo
      exact ⟨bl, hbs.symm⟩
    obtain ⟨bl, hbl⟩ := hbs
    subst hbl
    unfold slicesOut at h
    refine slicesAux_covers para _ ss 0 h (slicePairs_chain _ _) ?_ (Nat.zero_le _)
    intro p hp
    obtain ⟨x, hx⟩ := slicePairs_head 0 bl para.length
    rw [hx] at hp
    have hpx : (0, x) = p := by simpa using hp
    rw [← hpx]

lemma findSep_le : ∀ (t : List Char) (k r : Nat),
    findSep t = some (k, r) → k + r ≤ t.length := by
  intro t
  induction t with
  | nil => intro k r h; exact absurd h (by simp [findSep])
  | cons c rest ih =>
    intro k r h
    unfold findSep at h
    cases hcn : (c == nlChar) with
    | false =>
      simp only [hcn] at h
      obtain ⟨⟨k0, r0⟩, hk0, hkr⟩ := Option.map_eq_some'.mp h
      have hk1 : k = k0 + 1 := congrArg Prod.fst hkr.symm
      have hk2 : r = r0 := congrArg Prod.snd hkr.symm
      subst hk1; subst hk2
      have h5 := ih k0 r hk0
      simp only [List.length_cons]
      omega
    | true =>
      cases rest with
      | nil =>
        simp only [hcn] at h
        exact absurd h (by simp [findSep])
      | cons d rest2 =>
        simp only [hcn] at h
        split at h
        case isTrue =>
          have h2 := Option.some.inj h
          have hk1 : k = 0 := congrArg Prod.fst h2.symm
          have hk2 : r = 2 + countWhile (· == nlChar) rest2 := congrArg Prod.snd h2.symm
          subst hk1; subst hk2
          have h5 := countWhile_le (· == nlChar) rest2
          simp only [List.length_cons]
          omega
        case isFalse =>
          obtain ⟨⟨k0, r0⟩, hk0, hkr⟩ := Option.map_eq_some'.mp h
          have hk1 : k = k0 + 1 := congrArg Prod.fst hkr.symm
          have hk2 : r = r0 := congrArg Prod.snd hkr.symm
          subst hk1; subst hk2
          have h5 := ih k0 r hk0
          simp only [List.length_cons] at h5 ⊢
          omega

/-- Taking a prefix of a slice is a shorter slice. -/
lemma extr_take (text : List Char) (o len j : Nat) (hj : j ≤ len) :
    (extr text o (o + len)).take j = extr text o (o + j) := by
  unfold extr
  rw [Nat.add_sub_cancel_left, Nat.add_sub_cancel_left, List.take_take,
    Nat.min_eq_left hj]

/-- Dropping a prefix of a slice is a later slice. -/
lemma extr_drop (text : List Char) (o len j : Nat) :
    (extr text o (o + len)).drop j = extr text (o + j) (o + len) := by
  unfold extr
  rw [Nat.add_sub_cancel_left, List.drop_take, List.drop_drop]
  have e2 : len - j = o + len - (o + j) := by omega
  rw [e2]

lemma splitParasF_paras (text : List Char) :
    ∀ (fuel : Nat) (t : List Char) (o n : Nat),
      t = extr text o (o + t.length) →
      o + t.length ≤ text.length →
      n ≤ o →
      Paras text n (splitParasF fuel t) := by
  intro fuel
  induction fuel with
  | zero =>
    intro t o n hext hlen hno
    exact Paras.cons hno hlen hext Paras.nil
  | succ f ih =>
    intro t o n hext hlen hno
    unfold splitParasF
    cases hsep : findSep t with
    | none => exact Paras.cons hno hlen hext Paras.nil
    | some kr =>
      obtain ⟨k, r⟩ := kr
      have hkr := findSep_le t k r hsep
      have htake_len : (t.take k).length = k := by
        rw [List.length_take]
        omega
      have htake_ext : t.take k = extr text o (o + k) := by
        conv_lhs => rw [hext]
        exact extr_take text o t.length k (by omega)
      have hdlen : (t.drop (k + r)).length = t.length - (k + r) := List.length_drop _ _
      have hdrop_ext : t.drop (k + r) = extr text (o + (k + r)) (o + t.length) := by
        conv_lhs => rw [hext]
        exact extr_drop text o t.length (k + r)
      refine Paras.cons (o := o) hno ?_ ?_ ?_
      · rw [htake_len]
        omega
      · rw [htake_len]
        exact htake_ext
      · rw [htake_len]
        refine ih (t.drop (k + r)) (o + (k + r)) (o + k) ?_ ?_ (by omega)
        · have e3 : o + (k + r) + (t.drop (k + r)).length = o + t.length := by
            rw [hdlen]
            omega
          rw [e3]
          exact hdrop_ext
        · rw [hdlen]
          omega

lemma splitParas_paras (text : List Char) : Paras text 0 (splitParas text) := by
  unfold splitParas
  refine splitParasF_paras text _ text 0 0 ?_ (by simp) (le_refl _)
  unfold extr
  simp

lemma seg_paras_covers (L : Language) (text : List Char) :
    ∀ (pls : List (List Char)) (acc out : List (List Char)) (n k : Nat),
      Paras text n pls →
      seg_paras L pls acc = some out →
      Covers text 0 k acc →
      k ≤ n → k ≤ text.length →
      Covers text 0 text.length out := by
  intro pls
  induction pls with
  | nil =>
    intro acc out n k _ h hacc hkn hkl
    cases Option.some.inj h
    exact hacc.weaken_end hkl
  | cons p ps ih =>
    intro acc out n k hparas h hacc hkn hkl
    cases hparas with
    | @cons _ o _ _ hno hplen hpext hps =>
      unfold seg_paras at h
      simp only at h
      cases hss : paraSentences L p with
      | none => rw [hss] at h; cases h
      | some ss =>
        rw [hss] at h
        have hcov2 : Covers text 0 k (if acc.isEmpty then acc else acc ++ [nlMarker]) := by
          split
          · exact hacc
          · exact hacc.append (Covers.marker (Covers.nil (le_refl k)))
        have hship := (paraSentences_covers L p ss hss).shift text o hpext hplen
        have hss2 : Covers text k (o + p.length) ss :=
          (hship.weaken_start (by omega))
        have hcomb : Covers text 0 (o + p.length)
            ((if acc.isEmpty then acc else acc ++ [nlMarker]) ++ ss) :=
          hcov2.append hss2
        exact ih _ out (o + p.length) (o + p.length) hps h hcomb (le_refl _) hplen

/-- C10: whenever `segment` returns a list, every element is either the
literal paragraph marker or the result of trimming plain spaces from a
contiguous slice of the input text, and the slice-derived elements appear in
the same left-to-right order as their source positions (`Covers` threads a
monotonically advancing source offset through the output); `segment` never
fabricates sentence text. -/
theorem C10_output_covers :
    ∀ (L : Language) (text : List Char) (out : List (List Char)),
      L.segment text = some out →
      Covers text 0 text.length out := by
  intro L text out h
  unfold Language.segment at h
  exact seg_paras_covers L text (splitParas text) [] out 0 0
    (splitParas_paras text) h (Covers.nil (le_refl 0)) (le_refl 0) (Nat.zero_le _)

/-- C10 witness: the two-paragraph English text is covered by its output,
markers included. -/
theorem C10_output_covers_witness :
    Covers (s2l "One. Two.\n\nThree.") 0 (s2l "One. Two.\n\nThree.").length
      [s2l "One.", s2l "Two.", nlMarker, s2l "Three."] :=
  C10_output_covers enLanguage (s2l "One. Two.\n\nThree.")
    [s2l "One.", s2l "Two.", nlMarker, s2l "Three."] (by decide)

end Tqsm
